import Mathlib

/-!
Verification of the dependency-manifest consistency checker of the
`requirements-tools` repository.  The Python sources
(`requirements_tools/check_requirements.py` and the historical top-level
`check_requirements.py`) are shallowly embedded below: pure functions become
Lean functions, the worklist loop of the transitive-closure walker becomes a
fuel-indexed loop together with a proof that a computable fuel bound always
suffices, and fallible code returns `Option`/`Except`.

The ambient `pkg_resources` library (requirement parsing, `safe_name`,
`safe_extra`, `safe_version`, marker evaluation) is an external collaborator
of the repository; its behaviour is modelled here by an explicit grammar and
explicit normalisation functions, following the spec's description of the
Requirement Parser component.
-/

deriving instance DecidableEq for Except

namespace ReqTools

/-! ## Character classes and low-level list-of-char utilities -/

def spaceChar (c : Char) : Bool := c == ' ' || c == '\t'

def nameChar (c : Char) : Bool := c.isAlphanum || c == '.' || c == '-' || c == '_'

def opChar (c : Char) : Bool := c == '=' || c == '<' || c == '>' || c == '!' || c == '~'

def versionChar (c : Char) : Bool :=
  c.isAlphanum || c == '.' || c == '-' || c == '_' || c == '+' || c == '*' || c == '!'

def validOps : List (List Char) :=
  [['=', '='], ['!', '='], ['<', '='], ['>', '='], ['<'], ['>'], ['~', '='], ['=', '=', '=']]

def trimL (cs : List Char) : List Char := cs.dropWhile spaceChar

def trimR (cs : List Char) : List Char := (cs.reverse.dropWhile spaceChar).reverse

def trimCs (cs : List Char) : List Char := trimR (trimL cs)

/-- Split at the first occurrence of `c`; the second component is `none` when
`c` does not occur. -/
def splitFirst (c : Char) : List Char → List Char × Option (List Char)
  | [] => ([], none)
  | x :: xs =>
    if x == c then ([], some xs)
    else
      let r := splitFirst c xs
      (x :: r.1, r.2)

/-- Split on every occurrence of `c` (like Python `str.split`). -/
def splitOnC (c : Char) : List Char → List (List Char)
  | [] => [[]]
  | x :: xs =>
    if x == c then [] :: splitOnC c xs
    else
      match splitOnC c xs with
      | [] => [[x]]
      | p :: ps => (x :: p) :: ps

/-- Join with a single-character separator (inverse of `splitOnC`). -/
def joinC (c : Char) : List (List Char) → List Char
  | [] => []
  | [p] => p
  | p :: q :: ps => p ++ c :: joinC c (q :: ps)

/-! ## Normalisation helpers of the ambient packaging library

Modelled from the spec: `pkg_resources.safe_name`, `safe_extra` and
`safe_version` are not part of this repository.  Per the spec, `safe_name`
folds runs of characters outside letters/digits/dots into a single dash (so
underscores become dashes), `safe_extra` folds invalid runs into underscores
and lowercases, and `safe_version` canonicalises version spellings so that
equivalent pre-release spellings such as `1.2.3-rc1` and `1.2.3rc1` compare
equal (modelled as: spaces become dots, then every character outside
letters/digits/dots is dropped). -/

def goodNameChar (c : Char) : Bool := c.isAlphanum || c == '.'

/-- Collapse runs of bad characters into a single replacement character; the
flag records whether the previous character was part of a bad run. -/
def collapseRuns (good : Char → Bool) (rep : Char) : Bool → List Char → List Char
  | _, [] => []
  | prevBad, c :: rest =>
    if good c then c :: collapseRuns good rep false rest
    else if prevBad then collapseRuns good rep true rest
    else rep :: collapseRuns good rep true rest

/-- Modelled from the spec: `pkg_resources.safe_name`, collapsing each maximal
run of characters outside `[A-Za-z0-9.]` into a single dash. -/
def safeNameCs (cs : List Char) : List Char := collapseRuns goodNameChar '-' false cs

def goodExtraChar (c : Char) : Bool := c.isAlphanum || c == '.' || c == '-'

def lowerChar (c : Char) : Char :=
  if 'A' ≤ c ∧ c ≤ 'Z' then Char.ofNat (c.toNat + 32) else c

/-- Modelled from the spec: `pkg_resources.safe_extra`, collapsing each maximal
run of characters outside `[A-Za-z0-9.-]` into a single underscore. -/
def safeExtraCs (cs : List Char) : List Char :=
  collapseRuns goodExtraChar '_' false cs

/-- Modelled from the spec: `pkg_resources.safe_version`, canonicalising
version spellings (spaces to dots, separator characters dropped) so that
`1.2.3-rc1` and `1.2.3rc1` normalise identically. -/
def safeVersionCs : List Char → List Char
  | [] => []
  | c :: rest =>
    let c' := if c == ' ' then '.' else c
    if c'.isAlphanum || c' == '.' then c' :: safeVersionCs rest else safeVersionCs rest

def safeName (s : String) : String := String.mk (safeNameCs s.data)

def safeVersion (s : String) : String := String.mk (safeVersionCs s.data)

/-! ## The Requirement value

Mirrors the fields of a `pkg_resources.Requirement` that the checker uses:
the raw parsed `name`, the `safe_extra`-normalised `extras` tuple, the
`specs` list of `(operator, version)` pairs, and the environment `marker`
(the text after a `;`, if any).  `project_name` and `key` are derived, as in
`pkg_resources` (`project_name = safe_name(name)`, `key = project_name.lower()`). -/

structure Req where
  name : String
  extras : List String
  specs : List (String × String)
  marker : Option String
deriving DecidableEq, Repr

def Req.project_name (r : Req) : String := safeName r.name

/-- ASCII lowercasing (Python `str.lower` on the ASCII package names the
checker deals in). -/
def lowerS (s : String) : String := String.mk (s.data.map lowerChar)

def Req.key (r : Req) : String := lowerS r.project_name

/-! ## The requirement grammar (`Requirement.parse`)

Modelled from the spec: `pkg_resources.Requirement.parse` is an external
collaborator; the spec describes its accepted surface as
`name [extras] (op version)*  ; marker` with whitespace tolerance, and the
claims only exercise this surface.  The parser below is that grammar. -/

def parseName (cs : List Char) : List Char × List Char :=
  (cs.takeWhile nameChar, cs.dropWhile nameChar)

def parseExtrasPart : List Char → Option (List (List Char) × List Char)
  | [] => some ([], [])
  | c :: rest =>
    if c = '[' then
      match splitFirst ']' rest with
      | (_, none) => none
      | (inside, some after) =>
        let es := (splitOnC ',' inside).map trimCs
        if es.all (fun e => !e.isEmpty && e.all nameChar) then some (es, after) else none
    else some ([], c :: rest)

def parseSpecOne (part : List Char) : Option (List Char × List Char) :=
  let op := part.takeWhile opChar
  let ver := trimCs (part.dropWhile opChar)
  if validOps.contains op && !ver.isEmpty && ver.all versionChar then some (op, ver) else none

def parseSpecList : List (List Char) → Option (List (List Char × List Char))
  | [] => some []
  | p :: ps =>
    match parseSpecOne p, parseSpecList ps with
    | some s, some rest => some (s :: rest)
    | _, _ => none

def parseSpecsFrom (cs : List Char) : Option (List (List Char × List Char)) :=
  if (trimCs cs).isEmpty then some []
  else parseSpecList ((splitOnC ',' (trimCs cs)).map trimCs)

def parseBody (body : List Char) :
    Option (List Char × List (List Char) × List (List Char × List Char)) :=
  if ((trimCs body).takeWhile nameChar).isEmpty then none
  else
    match parseExtrasPart (trimL ((trimCs body).dropWhile nameChar)) with
    | none => none
    | some (es, r2) =>
      match parseSpecsFrom r2 with
      | none => none
      | some sp => some ((trimCs body).takeWhile nameChar, es, sp)

/-- Model of `pkg_resources.Requirement.parse` on the raw character list:
parse the line, splitting off the marker text after a `;`, and normalise the
extras through `safe_extra` exactly as the `pkg_resources.Requirement`
constructor does. -/
def reqParseCs (cs : List Char) : Option Req :=
  if (splitFirst ';' cs).2.map trimCs = some [] then none
  else
    match parseBody (splitFirst ';' cs).1 with
    | none => none
    | some (nm, es, sp) =>
      some ⟨String.mk nm, es.map (fun e => String.mk (safeExtraCs e)),
            sp.map (fun p => (String.mk p.1, String.mk p.2)),
            ((splitFirst ';' cs).2.map trimCs).map String.mk⟩

/-- Model of `pkg_resources.Requirement.parse`. -/
def reqParse (s : String) : Option Req := reqParseCs s.data

/-- The string rebuilt by `parse_requirement`
(`dumb_parse.project_name + extras + ','.join(op + safe_version(version))`). -/
def rebuildCs (nm : List Char) (extras : List (List Char)) (specs : List (List Char × List Char)) :
    List Char :=
  safeNameCs nm
    ++ (if extras.isEmpty then [] else '[' :: (joinC ',' extras ++ [']']))
    ++ joinC ',' (specs.map (fun p => p.1 ++ safeVersionCs p.2))

def rebuild (r : Req) : String :=
  String.mk (rebuildCs r.name.data (r.extras.map String.data)
    (r.specs.map (fun p => (p.1.data, p.2.data))))

/-- `parse_requirement` from `requirements_tools/check_requirements.py`:
parse, then re-parse the rebuilt string with normalised versions (and the
environment marker stripped, since the rebuilt string carries none). -/
def parse_requirement (s : String) : Option Req :=
  match reqParse s with
  | none => none
  | some d => reqParse (rebuild d)

/-- Ordering used by Python `sorted` on strings (lexicographic). -/
def strLe (a b : String) : Bool := !(decide (b < a))

/-- Model of `str(Requirement)` (packaging renders the name, the sorted
extras in brackets, the sorted rendered specifiers, and `; marker`). -/
def reqStr (r : Req) : String :=
  String.mk (r.name.data
    ++ (if r.extras.isEmpty then [] else
        '[' :: (joinC ',' ((r.extras.mergeSort strLe).map String.data) ++ [']']))
    ++ joinC ',' (((r.specs.map (fun p => p.1 ++ p.2)).mergeSort strLe).map String.data)
    ++ (match r.marker with | none => [] | some m => ';' :: ' ' :: m.data))

/-- Requirement equality as `pkg_resources` implements it (`hashCmp`):
the key, the specifier set, the extras set, and the marker. -/
def Req.eqv (r1 r2 : Req) : Bool :=
  r1.key == r2.key
    && r1.specs.all (fun s => r2.specs.contains s)
    && r2.specs.all (fun s => r1.specs.contains s)
    && r1.extras.all (fun e => r2.extras.contains e)
    && r2.extras.all (fun e => r1.extras.contains e)
    && r1.marker == r2.marker

/-! ## `to_version`, `to_equality_str` -/

/-- `to_version`: the pinned version when the requirement has exactly one
spec whose operator is `==`, else `None`. -/
def to_version (r : Req) : Option String :=
  match r.specs with
  | [(op, v)] => if op = "==" then some v else none
  | _ => none

def to_equality_str (r : Req) : String :=
  r.key ++ "==" ++ (match to_version r with | some v => v | none => "None")

/-! ## The installed-package index

`installed_things` maps package keys to `pkg_resources` distributions.  The
distribution metadata keys each dependency group by an extra name (`None` for
the base group); `requires(extras)` returns the base group plus the group of
each requested extra. -/

structure InstalledPackage where
  key : String
  version : String
  base_requires : List Req
  extra_requires : List (String × List Req)
deriving DecidableEq, Repr

/-- Lookup in the `installed_things` dict. -/
def lookupIndex (idx : List InstalledPackage) (k : String) : Option InstalledPackage :=
  idx.find? (fun p => p.key == k)

/-- `pkg.requires(extras)`: the base dependency group followed by the group
of each requested extra. -/
def requiresOf (p : InstalledPackage) (extras : List String) : List Req :=
  p.base_requires
    ++ extras.flatMap (fun e =>
        match p.extra_requires.find? (fun q => q.1 == e) with
        | some q => q.2
        | none => [])

/-- The visited-set key of the closure walk: the `(key, extras)` pair. -/
def pairOf (r : Req) : String × List String := (r.key, r.extras)

/-- Set-insert for the `expected_pinned` set of `key==version` strings. -/
def strInsert (acc : List String) (s : String) : List String :=
  if s ∈ acc then acc else acc ++ [s]

def strUnion (acc : List String) (l : List String) : List String :=
  l.foldl strInsert acc

/-- How the closure walk renders the requiring parent in the unmet-dependency
failure: `key[extras]` when the parent has extras, else the bare key. -/
def renderParent (r : Req) : String :=
  if r.extras.isEmpty then r.key
  else r.key ++ "[" ++ String.intercalate "," r.extras ++ "]"

inductive WalkErr where
  | keyError (k : String)
  | unmet (missing : String) (parent : String)
deriving DecidableEq, Repr

/-- The `AssertionError` text raised on an unmet dependency. -/
def WalkErr.message : WalkErr → String
  | .keyError k => "KeyError: " ++ k
  | .unmet missing parent =>
    "Unmet dependency detected!\nSomehow `" ++ missing ++ "` is not installed!\n  (from "
      ++ parent ++ ")\nAre you suffering from https://github.com/pypa/pip/issues/3903?"

/-- The body of the `for sub_requirement in installed_req.requires(req.extras)`
loop: enqueue each sub-requirement whose `(key, extras)` pair is unvisited,
fail immediately when the sub-requirement is not installed, and add its
`key==installed_version` string to the accumulated set. -/
def processSubs (idx : List InstalledPackage) (parent : Req) :
    List Req → List Req → List (String × List String) → List String →
    Except WalkErr (List Req × List (String × List String) × List String)
  | [], wl, visited, acc => .ok (wl, visited, acc)
  | sub :: rest, wl, visited, acc =>
    let pr := pairOf sub
    let wl' := if pr ∈ visited then wl else sub :: wl
    let visited' := if pr ∈ visited then visited else pr :: visited
    match lookupIndex idx sub.key with
    | none => .error (.unmet sub.key (renderParent parent))
    | some installed =>
      processSubs idx parent rest wl' visited' (strInsert acc (installed.key ++ "==" ++ installed.version))

/-- The `while requirements_to_parse:` loop of
`get_pinned_versions_from_requirement`, with the worklist topped at the head
(Python appends to and pops from the end of its list) and an explicit fuel
argument; `walkFuel` below is a bound that provably always suffices. -/
def walkLoop (idx : List InstalledPackage) :
    List Req → List (String × List String) → List String → Nat →
    Option (Except WalkErr (List String))
  | [], _, acc, _ => some (.ok acc)
  | _ :: _, _, _, 0 => none
  | req :: wl, visited, acc, fuel + 1 =>
    match lookupIndex idx req.key with
    | none => some (.error (.keyError req.key))
    | some installed =>
      match processSubs idx req (requiresOf installed req.extras) wl visited acc with
      | .error e => some (.error e)
      | .ok (wl', visited', acc') => walkLoop idx wl' visited' acc' fuel

/-- Every requirement occurring in any dependency group of the index. -/
def allIndexReqs (idx : List InstalledPackage) : List Req :=
  idx.flatMap (fun p => p.base_requires ++ p.extra_requires.flatMap Prod.snd)

/-- All `(key, extras)` pairs the walk can ever newly visit. -/
def allPairs (idx : List InstalledPackage) : List (String × List String) :=
  ((allIndexReqs idx).map pairOf).dedup

def walkFuel (idx : List InstalledPackage) : Nat := (allPairs idx).length + 1

/-- `get_pinned_versions_from_requirement`: run the walk seeded with the
requirement, the visited set primed with its own `(key, extras)` pair.  The
fuel `walkFuel idx` is never exhausted (proved below), so the `.getD`
default is unreachable. -/
def get_pinned_versions_from_requirement (idx : List InstalledPackage) (requirement : Req) :
    Except WalkErr (List String) :=
  (walkLoop idx [requirement] [pairOf requirement] [] (walkFuel idx)).getD (.ok [])

/-! ## Manifest reading (`get_lines_from_file`, `get_raw_requirements`) -/

def trimS (s : String) : String := String.mk (trimCs s.data)

/-- `get_lines_from_file`: strip each line, keeping lines that are non-blank
after stripping and that do not start (unstripped) with `#`. -/
def get_lines_from_file (lines : List String) : List String :=
  (lines.filter (fun l => !(trimS l).isEmpty && !l.startsWith "#")).map trimS

def parseErrorMsg (line : String) : String :=
  "Requirements must be <<pkg>> or <<pkg>>==<<version>>\n"
    ++ " - git / http / etc. urls may be mutable (unpinnable)\n"
    ++ " - transitive dependencies from urls are not traceable\n"
    ++ " - line of error: " ++ line ++ "\n"

/-- The loop body of `get_raw_requirements` over already-stripped lines:
skip the editable self-install, parse the raw requirement, drop the line
entirely when its environment marker evaluates false against the current
environment `env`, otherwise keep `(parse_requirement(line), filename)`.
Marker evaluation lives in the external packaging library and is modelled by
the ambient valuation `env` on marker texts. -/
def getRawLoop (env : String → Bool) (filename : String) :
    List String → Except String (List (Req × String))
  | [] => .ok []
  | line :: rest =>
    if trimS line = "-e ." then getRawLoop env filename rest
    else
      match reqParse line with
      | none => .error (parseErrorMsg line)
      | some raw =>
        if (match raw.marker with | some m => !env m | none => false) then
          getRawLoop env filename rest
        else
          match parse_requirement line with
          | none => .error (parseErrorMsg line)
          | some r =>
            match getRawLoop env filename rest with
            | .error e => .error e
            | .ok l => .ok ((r, filename) :: l)

/-- `get_raw_requirements` on the raw file contents. -/
def get_raw_requirements (env : String → Bool) (filename : String) (lines : List String) :
    Except String (List (Req × String)) :=
  getRawLoop env filename (get_lines_from_file lines)

/-! ## `to_pinned_versions` and `find_unpinned_requirements` -/

/-- Dict insert with overwrite: later entries replace earlier ones. -/
def insertAssoc (m : List (String × Option String)) (k : String) (v : Option String) :
    List (String × Option String) :=
  if m.any (fun q => q.1 == k) then m.map (fun q => if q.1 == k then (k, v) else q)
  else m ++ [(k, v)]

/-- `to_pinned_versions`: the dict comprehension
`\x7breq.key: to_version(req) for req, _ in requirements\x7d`, in which a later
occurrence of a key overwrites an earlier one. -/
def to_pinned_versions (requirements : List (Req × String)) : List (String × Option String) :=
  requirements.foldl (fun m rf => insertAssoc m rf.1.key (to_version rf.1)) []

def dictGet (m : List (String × Option String)) (k : String) : Option String :=
  match m.find? (fun q => q.1 == k) with
  | some q => q.2
  | none => none

def dictHasKey (m : List (String × Option String)) (k : String) : Bool :=
  m.any (fun q => q.1 == k)

/-- Python truthiness of the dict value (`None` and the empty string are
falsy). -/
def falsyVal : Option String → Bool
  | none => true
  | some s => s == ""

def tripleInsert (acc : List (String × Req × String)) (x : String × Req × String) :
    List (String × Req × String) :=
  if x ∈ acc then acc else acc ++ [x]

/-- The second half of `find_unpinned_requirements`: for every declared
requirement, each immediate dependency whose key is absent from the
pinned-versions dict is emitted, attributed to the declaring requirement.
A declared key missing from `installed_things` raises (`KeyError`). -/
def unpinnedGo (idx : List InstalledPackage) (pv : List (String × Option String)) :
    List (Req × String) → List (String × Req × String) →
    Except String (List (String × Req × String))
  | [], acc => .ok acc
  | (r, f) :: rest, acc =>
    match lookupIndex idx r.key with
    | none => .error r.key
    | some p =>
      let acc' := (requiresOf p r.extras).foldl
        (fun a sub => if dictHasKey pv sub.key then a else tripleInsert a (sub.key, r, f)) acc
      unpinnedGo idx pv rest acc'

/-- `find_unpinned_requirements`. -/
def find_unpinned_requirements (idx : List InstalledPackage)
    (requirements : List (Req × String)) :
    Except String (List (String × Req × String)) :=
  let pv := to_pinned_versions requirements
  let part1 := requirements.foldl
    (fun a rf => if falsyVal (dictGet pv rf.1.key) then tripleInsert a (rf.1.key, rf.1, rf.2) else a)
    []
  unpinnedGo idx pv requirements part1

/-! ## Reconciliation (`_expected_pinned`, `test_top_level_dependencies`) -/

inductive RecError where
  | notInstalledMinimal (minimalFile pinFile k : String)
  | walkFail (e : WalkErr)
  | badExpected (s : String)
  | pinnedButNotRequired (pin minimal : String) (surplus : List Req)
  | requiredButNotPinned (pin minimal : String) (missing : List Req)
deriving DecidableEq, Repr

/-- The loop of `_expected_pinned`: each minimal requirement must be
installed (else the check fails naming the minimal file, the pin file and the
key), contributes its own `key==installed_version` string, and contributes
its full transitive closure. -/
def expectedPinnedGo (idx : List InstalledPackage) (minimalFile pinFile : String) :
    List Req → List String → Except RecError (List String)
  | [], acc => .ok acc
  | r :: rest, acc =>
    match lookupIndex idx r.key with
    | none => .error (.notInstalledMinimal minimalFile pinFile r.key)
    | some p =>
      match get_pinned_versions_from_requirement idx r with
      | .error e => .error (.walkFail e)
      | .ok l =>
        expectedPinnedGo idx minimalFile pinFile rest
          (strUnion (strInsert acc (r.key ++ "==" ++ p.version)) l)

def _expected_pinned (idx : List InstalledPackage) (minimal : List Req)
    (minimalFile pinFile : String) : Except RecError (List String) :=
  expectedPinnedGo idx minimalFile pinFile minimal []

/-- `\x7bparse_requirement(s) for s in expected_pinned_str\x7d`. -/
def parseExpected : List String → Except RecError (List Req)
  | [] => .ok []
  | s :: rest =>
    match parse_requirement s with
    | none => .error (.badExpected s)
    | some r =>
      match parseExpected rest with
      | .error e => .error e
      | .ok l => .ok (r :: l)

/-- Set difference of requirement sets under `pkg_resources` requirement
equality. -/
def reqDiff (a b : List Req) : List Req :=
  a.filter (fun r => !(b.any (fun e => Req.eqv r e)))

/-- Requirement-set equality (mutual containment under `Req.eqv`). -/
def reqSetEqv (a b : List Req) : Bool :=
  a.all (fun r => b.any (fun e => Req.eqv r e)) && b.all (fun r => a.any (fun e => Req.eqv r e))

/-- The body of the `for expected_pinned_str, pin_filename, minimal_filename
in environments:` loop: re-parse the expected strings, diff against the
declared pins, and fail first on `pinned_but_not_required`, then on
`required_but_not_pinned`. -/
def checkEnvironment (expectedStrs : List String) (declared : List Req)
    (pin minimal : String) : Except RecError Unit :=
  match parseExpected expectedStrs with
  | .error e => .error e
  | .ok expected =>
    let pbnr := reqDiff declared expected
    if pbnr.isEmpty then
      let rbnp := reqDiff expected declared
      if rbnp.isEmpty then .ok ()
      else .error (.requiredButNotPinned pin minimal rbnp)
    else .error (.pinnedButNotRequired pin minimal pbnr)

/-- `test_top_level_dependencies`, abstracted over the file system: the prod
minimal manifest, the dev minimal manifest when `requirements-dev-minimal.txt`
exists, and the contents of each pin file when it exists (reconciliation uses
the empty declared set for an absent pin file).  The prod expected set is
computed first; when a dev environment exists its expected set has the prod
expected set subtracted out before either environment is diffed, and the prod
environment is diffed first. -/
def test_top_level_dependencies (idx : List InstalledPackage)
    (prodMinimal : List Req) (devMinimal : Option (List Req))
    (prodPins devPins : Option (List Req)) : Except RecError Unit :=
  match _expected_pinned idx prodMinimal "requirements-minimal.txt" "requirements.txt" with
  | .error e => .error e
  | .ok expProd =>
    match devMinimal with
    | some dm =>
      match _expected_pinned idx dm "requirements-dev-minimal.txt" "requirements-dev.txt" with
      | .error e => .error e
      | .ok expDev0 =>
        let expDev := expDev0.filter (fun s => !(expProd.contains s))
        match checkEnvironment expProd (prodPins.getD []) "requirements.txt"
            "requirements-minimal.txt" with
        | .error e => .error e
        | .ok _ =>
          checkEnvironment expDev (devPins.getD []) "requirements-dev.txt"
            "requirements-dev-minimal.txt"
    | none =>
      checkEnvironment expProd (prodPins.getD []) "requirements.txt" "requirements-minimal.txt"

/-! ## The npm dependency tree (historical top-level `check_requirements.py`) -/

inductive NpmTree where
  | node (name : String) (version : String) (deps : List NpmTree)

def NpmTree.name : NpmTree → String
  | .node n _ _ => n

def NpmTree.version : NpmTree → String
  | .node _ v _ => v

/-- The `inner` recursion of `parse_npm_dependency_tree`, flattened to
`(name, version, wanter)` triples: each child of a node named `pname@pver`
contributes a triple, except that the `jquery` subtree is skipped entirely. -/
def npmEntriesChildren (pname pver : String) : List NpmTree → List (String × String × String)
  | [] => []
  | .node cn cv cd :: rest =>
    (if cn == "jquery" then []
     else (cn, cv, pname ++ "@" ++ pver) :: npmEntriesChildren cn cv cd)
      ++ npmEntriesChildren pname pver rest

/-- `parse_npm_dependency_tree`: the root itself is recorded nowhere, but it
is the parent of its direct dependencies. -/
def parse_npm_dependency_tree : NpmTree → List (String × String × String)
  | .node n v deps => npmEntriesChildren n v deps

def npmHasPackage (entries : List (String × String × String)) (package : String) : Bool :=
  entries.any (fun e => e.1 == package)

/-- Lexicographic order on code points, as Python compares strings. -/
def listLtB : List Char → List Char → Bool
  | [], [] => false
  | [], _ :: _ => true
  | _ :: _, [] => false
  | a :: as, b :: bs =>
    if a.toNat < b.toNat then true
    else if b.toNat < a.toNat then false
    else listLtB as bs

def strLtB (a b : String) : Bool := listLtB a.data b.data

/-- `sorted(wanted_by)[0]`: the lexicographically least wanter of
`package@version`, or `none` when the wanted-by set is empty (in which case
the source raises `IndexError`). -/
def minWanter (entries : List (String × String × String)) (package version : String) :
    Option String :=
  (entries.filterMap (fun e => if e.1 == package && e.2.1 == version then some e.2.2 else none)).foldl
    (fun acc s =>
      match acc with
      | none => some s
      | some m => if strLtB s m then some s else some m)
    none

def wanterName (w : String) : String := String.mk (w.data.takeWhile (fun c => c ≠ '@'))

def wanterVersion (w : String) : String :=
  String.mk ((w.data.dropWhile (fun c => c ≠ '@')).drop 1)

/-- `npm_installed_reason`, with explicit fuel: the outer `none` means the
recursion did not finish within `fuel` steps; `some none` models the
`IndexError` on an empty wanted-by set; `some (some s)` is a normal return. -/
def npm_installed_reason (entries : List (String × String × String)) :
    Nat → String → String → Option (Option String)
  | 0, _, _ => none
  | fuel + 1, package, version =>
    if npmHasPackage entries package then
      match minWanter entries package version with
      | none => some none
      | some w =>
        match npm_installed_reason entries fuel (wanterName w) (wanterVersion w) with
        | none => none
        | some none => some none
        | some (some s) => some (some (w ++ "<-" ++ s))
    else some (some "(package.json)")

/-- The wanted-by walk of `npm_installed_reason`, as a relation: from
`(package, version)`, repeatedly follow the lexicographically smallest
wanter; the walk escapes the map at a package absent from it, producing
`"(package.json)"`, and each step prepends its wanter.  `NpmChain entries
p v s` says the walk from `(p, v)` reaches a package outside the map after
finitely many steps, accumulating the chain `s`. -/
inductive NpmChain (entries : List (String × String × String)) :
    String → String → String → Prop
  | escape (p v : String) :
      npmHasPackage entries p = false → NpmChain entries p v "(package.json)"
  | step (p v w s : String) :
      npmHasPackage entries p = true →
      minWanter entries p v = some w →
      NpmChain entries (wanterName w) (wanterVersion w) s →
      NpmChain entries p v (w ++ "<-" ++ s)

/-- An npm dependency tree whose wanted-by chains are cyclic:
`root@0` wants `a@1`, which wants `b@1`, which wants `a@1` again. -/
def cycTree : NpmTree :=
  .node "root" "0" [.node "a" "1" [.node "b" "1" [.node "a" "1" []]]]

def cycEntries : List (String × String × String) :=
  [("a", "1", "root@0"), ("b", "1", "a@1"), ("a", "1", "b@1")]

/-- An npm dependency tree whose wanted-by chains are acyclic:
`root@0` wants `a@1`, which wants `b@1`. -/
def linTree : NpmTree := .node "root" "0" [.node "a" "1" [.node "b" "1" []]]

def linEntries : List (String × String × String) :=
  [("a", "1", "root@0"), ("b", "1", "a@1")]

theorem npm_cycle_none : ∀ fuel,
    npm_installed_reason cycEntries fuel "a" "1" = none ∧
    npm_installed_reason cycEntries fuel "b" "1" = none := by
  intro fuel
  induction fuel with
  | zero => exact ⟨rfl, rfl⟩
  | succ f ih =>
    constructor
    · simp only [npm_installed_reason]
      rw [if_pos (show npmHasPackage cycEntries "a" = true from by decide)]
      rw [show minWanter cycEntries "a" "1" = some "b@1" from by decide]
      show (match npm_installed_reason cycEntries f (wanterName "b@1") (wanterVersion "b@1") with
        | none => (none : Option (Option String))
        | some none => some none
        | some (some s) => some (some ("b@1" ++ "<-" ++ s))) = none
      rw [show wanterName "b@1" = "b" from by decide,
          show wanterVersion "b@1" = "1" from by decide]
      rw [ih.2]
    · simp only [npm_installed_reason]
      rw [if_pos (show npmHasPackage cycEntries "b" = true from by decide)]
      rw [show minWanter cycEntries "b" "1" = some "a@1" from by decide]
      show (match npm_installed_reason cycEntries f (wanterName "a@1") (wanterVersion "a@1") with
        | none => (none : Option (Option String))
        | some none => some none
        | some (some s) => some (some ("a@1" ++ "<-" ++ s))) = none
      rw [show wanterName "a@1" = "a" from by decide,
          show wanterVersion "a@1" = "1" from by decide]
      rw [ih.1]

theorem npm_installed_reason_mono (entries : List (String × String × String)) :
    ∀ (f1 f2 : Nat) (p v : String) (r : Option String), f1 ≤ f2 →
      npm_installed_reason entries f1 p v = some r →
      npm_installed_reason entries f2 p v = some r := by
  intro f1
  induction f1 with
  | zero =>
    intro f2 p v r _ h
    exact absurd h (by simp [npm_installed_reason])
  | succ f ih =>
    intro f2 p v r hle h
    cases f2 with
    | zero => exact absurd hle (by omega)
    | succ f2' =>
      have hle' : f ≤ f2' := by omega
      simp only [npm_installed_reason] at h ⊢
      by_cases hp : npmHasPackage entries p = true
      · rw [if_pos hp] at h ⊢
        cases hw : minWanter entries p v with
        | none =>
          rw [hw] at h
          exact h
        | some w =>
          rw [hw] at h
          have h2 : (match npm_installed_reason entries f (wanterName w) (wanterVersion w) with
            | none => (none : Option (Option String))
            | some none => some none
            | some (some s) => some (some (w ++ "<-" ++ s))) = some r := h
          show (match npm_installed_reason entries f2' (wanterName w) (wanterVersion w) with
            | none => (none : Option (Option String))
            | some none => some none
            | some (some s) => some (some (w ++ "<-" ++ s))) = some r
          cases hrec : npm_installed_reason entries f (wanterName w) (wanterVersion w) with
          | none =>
            rw [hrec] at h2
            exact absurd h2 (by simp)
          | some o =>
            rw [hrec] at h2
            rw [ih f2' (wanterName w) (wanterVersion w) o hle' hrec]
            exact h2
      · rw [if_neg hp] at h ⊢
        exact h

/-- C10 counterexample: the claim fails — on the cyclic tree `cycTree` the
pair `("a", "1")` is present in the parsed dependency map, yet
`npm_installed_reason` never returns for it: the wanted-by walk
`a@1 -> b@1 -> a@1 -> ...` recurses forever (no amount of fuel produces a
result), mirroring the unguarded recursion of the source. -/
theorem npm_installed_reason_cycle_diverges :
    ("a", "1", "b@1") ∈ parse_npm_dependency_tree cycTree ∧
    ¬ ∃ (fuel : Nat) (r : Option String),
      npm_installed_reason (parse_npm_dependency_tree cycTree) fuel "a" "1" = some r := by
  have hE : parse_npm_dependency_tree cycTree = cycEntries := by
    simp [parse_npm_dependency_tree, cycTree, npmEntriesChildren, cycEntries]
  constructor
  · rw [hE]
    decide
  · rintro ⟨fuel, r, hr⟩
    rw [hE, (npm_cycle_none fuel).1] at hr
    exact absurd hr (by simp)

theorem npm_chain_terminates (entries : List (String × String × String)) :
    ∀ (p v s : String), NpmChain entries p v s →
      ∃ fuel, npm_installed_reason entries fuel p v = some (some s) := by
  intro p v s h
  induction h with
  | escape p v hp =>
    refine ⟨1, ?_⟩
    simp only [npm_installed_reason]
    rw [if_neg (by rw [hp]; simp)]
  | step p v w s hp hw _hc ih =>
    obtain ⟨fuel0, hf⟩ := ih
    refine ⟨fuel0 + 1, ?_⟩
    simp only [npm_installed_reason]
    rw [if_pos hp, hw]
    show (match npm_installed_reason entries fuel0 (wanterName w) (wanterVersion w) with
      | none => (none : Option (Option String))
      | some none => some none
      | some (some s2) => some (some (w ++ "<-" ++ s2))) = some (some (w ++ "<-" ++ s))
    rw [hf]

/-- C10 amended: `npm_installed_reason` is fuel-stable — once any fuel yields
a result, every larger fuel yields the same result; whenever the wanted-by
walk from the queried `(package, version)` reaches a package outside the map
(`NpmChain`), it terminates and returns exactly the chain obtained by
repeatedly following the lexicographically smallest wanter, ending with
`(package.json)`; and on the acyclic tree `linTree` that chain for `(b, 1)`
is the concrete `a@1<-root@0<-(package.json)`.  (The unamended claim —
termination for *every* pair present in *every* tree's map — fails on
cyclic trees.) -/
theorem npm_installed_reason_fuel_stable_and_chain :
    (∀ (entries : List (String × String × String)) (f1 f2 : Nat) (p v : String)
        (r : Option String), f1 ≤ f2 →
      npm_installed_reason entries f1 p v = some r →
      npm_installed_reason entries f2 p v = some r) ∧
    (∀ (entries : List (String × String × String)) (p v s : String),
      NpmChain entries p v s →
      ∃ fuel, npm_installed_reason entries fuel p v = some (some s)) ∧
    npm_installed_reason (parse_npm_dependency_tree linTree) 3 "b" "1" =
      some (some "a@1<-root@0<-(package.json)") := by
  have hE : parse_npm_dependency_tree linTree = linEntries := by
    simp [parse_npm_dependency_tree, linTree, npmEntriesChildren, linEntries]
  refine ⟨npm_installed_reason_mono, npm_chain_terminates, ?_⟩
  rw [hE]
  decide

/-- Witness for C10: on the concrete acyclic entry list, the wanted-by walk
from `(b, 1)` escapes the map, so some fuel returns its chain; and the
fuel-stability conjunct lifts the fuel-3 run to fuel 5. -/
theorem npm_installed_reason_fuel_stable_and_chain_witness :
    (∃ fuel, npm_installed_reason linEntries fuel "b" "1" =
      some (some "a@1<-root@0<-(package.json)")) ∧
    npm_installed_reason linEntries 5 "b" "1" =
      some (some "a@1<-root@0<-(package.json)") := by
  have h1 : NpmChain linEntries "root" "0" "(package.json)" :=
    NpmChain.escape "root" "0" (by decide)
  have h2 : NpmChain linEntries (wanterName "root@0") (wanterVersion "root@0")
      "(package.json)" := by
    rw [show wanterName "root@0" = "root" from by decide,
        show wanterVersion "root@0" = "0" from by decide]
    exact h1
  have h3 : NpmChain linEntries "a" "1" ("root@0" ++ "<-" ++ "(package.json)") :=
    NpmChain.step "a" "1" "root@0" "(package.json)" (by decide) (by decide) h2
  have h4 : NpmChain linEntries (wanterName "a@1") (wanterVersion "a@1")
      ("root@0" ++ "<-" ++ "(package.json)") := by
    rw [show wanterName "a@1" = "a" from by decide,
        show wanterVersion "a@1" = "1" from by decide]
    exact h3
  have h5 : NpmChain linEntries "b" "1"
      ("a@1" ++ "<-" ++ ("root@0" ++ "<-" ++ "(package.json)")) :=
    NpmChain.step "b" "1" "a@1" ("root@0" ++ "<-" ++ "(package.json)")
      (by decide) (by decide) h4
  constructor
  · rw [show ("a@1<-root@0<-(package.json)" : String) =
      "a@1" ++ "<-" ++ ("root@0" ++ "<-" ++ "(package.json)") from by decide]
    exact npm_installed_reason_fuel_stable_and_chain.2.1 linEntries "b" "1"
      ("a@1" ++ "<-" ++ ("root@0" ++ "<-" ++ "(package.json)")) h5
  · exact npm_installed_reason_fuel_stable_and_chain.1 linEntries 3 5 "b" "1"
      (some "a@1<-root@0<-(package.json)") (by decide) (by decide)

/-! ## Termination of the closure walk -/

/-- Number of `(key, extras)` pairs the walk may still newly visit. -/
def unseen (idx : List InstalledPackage) (visited : List (String × List String)) : Nat :=
  ((allPairs idx).toFinset \ visited.toFinset).card

theorem unseen_cons_le (idx : List InstalledPackage) (a : String × List String)
    (v : List (String × List String)) : unseen idx (a :: v) ≤ unseen idx v := by
  unfold unseen
  apply Finset.card_le_card
  apply Finset.sdiff_subset_sdiff (le_refl _)
  simp only [List.toFinset_cons]
  exact Finset.subset_insert _ _

theorem unseen_cons_lt (idx : List InstalledPackage) (a : String × List String)
    (v : List (String × List String)) (ha : a ∈ allPairs idx) (hv : a ∉ v) :
    unseen idx (a :: v) < unseen idx v := by
  unfold unseen
  apply Finset.card_lt_card
  constructor
  · apply Finset.sdiff_subset_sdiff (le_refl _)
    simp only [List.toFinset_cons]
    exact Finset.subset_insert _ _
  · intro hsub
    have hmem : a ∈ (allPairs idx).toFinset \ v.toFinset := by
      simp [List.mem_toFinset, ha, hv]
    have := hsub hmem
    simp [List.toFinset_cons] at this

theorem unseen_le_len (idx : List InstalledPackage) (v : List (String × List String)) :
    unseen idx v ≤ (allPairs idx).length := by
  unfold unseen
  calc ((allPairs idx).toFinset \ v.toFinset).card
      ≤ (allPairs idx).toFinset.card := Finset.card_le_card (Finset.sdiff_subset)
    _ ≤ (allPairs idx).length := List.toFinset_card_le _

theorem mem_allIndexReqs (idx : List InstalledPackage) (p : InstalledPackage) (r : Req)
    (hp : p ∈ idx) (hr : r ∈ p.base_requires ∨ r ∈ p.extra_requires.flatMap Prod.snd) :
    r ∈ allIndexReqs idx := by
  unfold allIndexReqs
  rw [List.mem_flatMap]
  exact ⟨p, hp, by rw [List.mem_append]; exact hr⟩

theorem mem_allPairs_of_requires (idx : List InstalledPackage) (k : String)
    (p : InstalledPackage) (es : List String) (r : Req)
    (h1 : lookupIndex idx k = some p) (h2 : r ∈ requiresOf p es) :
    pairOf r ∈ allPairs idx := by
  have hp : p ∈ idx := List.mem_of_find?_eq_some h1
  have hr : r ∈ allIndexReqs idx := by
    apply mem_allIndexReqs idx p r hp
    unfold requiresOf at h2
    rw [List.mem_append] at h2
    rcases h2 with h | h
    · exact Or.inl h
    · right
      rw [List.mem_flatMap] at h
      obtain ⟨e, _, hre⟩ := h
      cases hfind : p.extra_requires.find? (fun q => q.1 == e) with
      | none => rw [hfind] at hre; simp at hre
      | some q =>
        rw [hfind] at hre
        rw [List.mem_flatMap]
        exact ⟨q, List.mem_of_find?_eq_some hfind, hre⟩
  unfold allPairs
  rw [List.mem_dedup, List.mem_map]
  exact ⟨r, hr, rfl⟩

theorem processSubs_measure (idx : List InstalledPackage) (parent : Req) :
    ∀ (subs wl : List Req) (v : List (String × List String)) (acc : List String)
      (wl2 : List Req) (v2 : List (String × List String)) (acc2 : List String),
      (∀ r ∈ subs, pairOf r ∈ allPairs idx) →
      processSubs idx parent subs wl v acc = .ok (wl2, v2, acc2) →
      wl2.length + unseen idx v2 ≤ wl.length + unseen idx v := by
  intro subs
  induction subs with
  | nil =>
    intro wl v acc wl2 v2 acc2 _ h
    simp only [processSubs] at h
    cases h
    exact le_refl _
  | cons sub rest ih =>
    intro wl v acc wl2 v2 acc2 hall h
    simp only [processSubs] at h
    cases hlook : lookupIndex idx sub.key with
    | none => rw [hlook] at h; exact absurd h (by simp)
    | some installed =>
      rw [hlook] at h
      have hrest : ∀ r ∈ rest, pairOf r ∈ allPairs idx := fun r hr =>
        hall r (List.mem_cons_of_mem _ hr)
      by_cases hmem : pairOf sub ∈ v
      · simp only [if_pos hmem] at h
        exact ih _ _ _ _ _ _ hrest h
      · simp only [if_neg hmem] at h
        have step := ih _ _ _ _ _ _ hrest h
        have hlt : unseen idx (pairOf sub :: v) < unseen idx v :=
          unseen_cons_lt idx _ v (hall sub (List.mem_cons_self _ _)) hmem
        simp only [List.length_cons] at step
        omega

theorem walkLoop_total (idx : List InstalledPackage) :
    ∀ (fuel : Nat) (wl : List Req) (v : List (String × List String)) (acc : List String),
      wl.length + unseen idx v ≤ fuel →
      (walkLoop idx wl v acc fuel).isSome := by
  intro fuel
  induction fuel with
  | zero =>
    intro wl v acc hm
    have : wl.length = 0 := by omega
    rw [List.length_eq_zero] at this
    subst this
    simp [walkLoop]
  | succ fuel ih =>
    intro wl v acc hm
    match wl with
    | [] => simp [walkLoop]
    | req :: wl =>
      simp only [walkLoop]
      cases hlook : lookupIndex idx req.key with
      | none => simp
      | some installed =>
        simp only []
        cases hps : processSubs idx req (requiresOf installed req.extras) wl v acc with
        | error e => simp
        | ok triple =>
          obtain ⟨wl', v', acc'⟩ := triple
          simp only []
          apply ih
          have hall : ∀ r ∈ requiresOf installed req.extras, pairOf r ∈ allPairs idx :=
            fun r hr => mem_allPairs_of_requires idx req.key installed req.extras r hlook hr
          have := processSubs_measure idx req _ _ _ _ _ _ _ hall hps
          simp only [List.length_cons] at hm
          omega

theorem walkLoop_fuel_enough (idx : List InstalledPackage) (r : Req) :
    (walkLoop idx [r] [pairOf r] [] (walkFuel idx)).isSome := by
  apply walkLoop_total
  have := unseen_le_len idx [pairOf r]
  simp only [List.length_singleton, walkFuel]
  omega

/-! ## Fixtures -/

/-- The cyclic installed index `a -> b -> a` with versions `1` and `2`. -/
def cycReqA : Req := ⟨"a", [], [], none⟩

def cycReqB : Req := ⟨"b", [], [], none⟩

def cycIdx : List InstalledPackage :=
  [⟨"a", "1", [cycReqB], []⟩, ⟨"b", "2", [cycReqA], []⟩]

/-- An index where `pkg`'s extra `a` activates `x` and extra `b` activates
`y`, and `s` requires both `pkg` and `pkg[a]`. -/
def extrasIdx : List InstalledPackage :=
  [⟨"s", "1", [⟨"pkg", [], [], none⟩, ⟨"pkg", ["a"], [], none⟩], []⟩,
   ⟨"pkg", "1", [], [("a", [⟨"x", [], [], none⟩]), ("b", [⟨"y", [], [], none⟩])]⟩,
   ⟨"x", "3", [], []⟩, ⟨"y", "4", [], []⟩]

/-- An index where `a`'s extra `x` requires `c`, and `c` is not installed. -/
def unmetReqC : Req := ⟨"c", [], [], none⟩

def unmetInstalledA : InstalledPackage := ⟨"a", "1", [], [("x", [unmetReqC])]⟩

def unmetIdx : List InstalledPackage := [unmetInstalledA]

def unmetSeed : Req := ⟨"a", ["x"], [], none⟩

/-- C2: for every finite installed index the closure walk with the computable
fuel bound `walkFuel` finishes (the fuel case is never hit); on the cyclic
index `a -> b -> a` the closure seeded with `a` terminates and returns
exactly the set containing `a==1` and `b==2`, each once. -/
theorem closure_walk_terminates_and_cycle :
    (∀ (idx : List InstalledPackage) (r : Req),
        (walkLoop idx [r] [pairOf r] [] (walkFuel idx)).isSome) ∧
    get_pinned_versions_from_requirement cycIdx cycReqA = .ok ["b==2", "a==1"] ∧
    (["b==2", "a==1"] : List String).Nodup ∧
    (["b==2", "a==1"] : List String).Perm ["a==1", "b==2"] :=
  ⟨fun idx r => walkLoop_fuel_enough idx r, by decide, by decide, by decide⟩

/-- C3: the closure walk seeds `pkg`, `pkg[a]`, `pkg[b]` carry pairwise
distinct `(key, extras)` visited-set keys, and a package reachable both bare
and with an extra is traversed under both keys, so extras-only dependencies
appear in the closure result. -/
theorem closure_walk_keyed_by_key_and_extras :
    (∃ r0 ra rb, parse_requirement "pkg" = some r0 ∧
        parse_requirement "pkg[a]" = some ra ∧
        parse_requirement "pkg[b]" = some rb ∧
        pairOf r0 ≠ pairOf ra ∧ pairOf r0 ≠ pairOf rb ∧ pairOf ra ≠ pairOf rb) ∧
    get_pinned_versions_from_requirement extrasIdx ⟨"s", [], [], none⟩ = .ok ["pkg==1", "x==3"] ∧
    get_pinned_versions_from_requirement extrasIdx ⟨"pkg", [], [], none⟩ = .ok [] ∧
    get_pinned_versions_from_requirement extrasIdx ⟨"pkg", ["a"], [], none⟩ = .ok ["x==3"] ∧
    get_pinned_versions_from_requirement extrasIdx ⟨"pkg", ["b"], [], none⟩ = .ok ["y==4"] := by
  refine ⟨⟨⟨"pkg", [], [], none⟩, ⟨"pkg", ["a"], [], none⟩, ⟨"pkg", ["b"], [], none⟩,
    by decide, by decide, by decide, by decide, by decide, by decide⟩,
    by decide, by decide, by decide, by decide⟩

theorem processSubs_unmet (idx : List InstalledPackage) (parent : Req) :
    ∀ (pre : List Req) (sub : Req) (post wl : List Req)
      (v : List (String × List String)) (acc : List String),
      (∀ r ∈ pre, (lookupIndex idx r.key).isSome) →
      lookupIndex idx sub.key = none →
      processSubs idx parent (pre ++ sub :: post) wl v acc =
        .error (.unmet sub.key (renderParent parent)) := by
  intro pre
  induction pre with
  | nil =>
    intro sub post wl v acc _ hN
    simp only [List.nil_append, processSubs, hN]
  | cons r pre ih =>
    intro sub post wl v acc hpre hN
    simp only [List.cons_append, processSubs]
    obtain ⟨p, hp⟩ := Option.isSome_iff_exists.mp (hpre r (List.mem_cons_self _ _))
    rw [hp]
    exact ih sub post _ _ _ (fun r' hr' => hpre r' (List.mem_cons_of_mem _ hr')) hN

/-- C5: when the closure walk reaches a sub-requirement whose key is missing
from the installed index, it fails immediately — without touching the rest of
the worklist — with the unmet-dependency error naming the missing key and the
requiring parent rendered as `key[extras]` (or the bare key when the parent
has no extras), and the failure message interpolates both. -/
theorem closure_walk_unmet_dependency (idx : List InstalledPackage)
    (req sub : Req) (installed : InstalledPackage)
    (pre post wl : List Req) (v : List (String × List String)) (acc : List String) (fuel : Nat)
    (h1 : lookupIndex idx req.key = some installed)
    (h2 : requiresOf installed req.extras = pre ++ sub :: post)
    (h3 : ∀ r ∈ pre, (lookupIndex idx r.key).isSome)
    (h4 : lookupIndex idx sub.key = none) :
    walkLoop idx (req :: wl) v acc (fuel + 1) =
      some (.error (.unmet sub.key (renderParent req))) ∧
    (∃ s1 s2 s3, WalkErr.message (.unmet sub.key (renderParent req)) =
        s1 ++ sub.key ++ s2 ++ renderParent req ++ s3) ∧
    (req.extras = [] → renderParent req = req.key) ∧
    (req.extras ≠ [] →
      renderParent req = req.key ++ "[" ++ String.intercalate "," req.extras ++ "]") := by
  refine ⟨?_, ?_, ?_, ?_⟩
  · simp only [walkLoop, h1]
    rw [h2, processSubs_unmet idx req pre sub post wl v acc h3 h4]
  · exact ⟨"Unmet dependency detected!\nSomehow `", "` is not installed!\n  (from ",
      ")\nAre you suffering from https://github.com/pypa/pip/issues/3903?", rfl⟩
  · intro h
    simp [renderParent, h]
  · intro h
    have hne : req.extras.isEmpty ≠ true := by simp [List.isEmpty_iff, h]
    simp [renderParent, hne]

/-- Witness for the unmet-dependency theorem at a concrete index: `a[x]`
requires `c`, and `c` is not installed. -/
theorem closure_walk_unmet_dependency_witness :
    walkLoop unmetIdx [unmetSeed] [pairOf unmetSeed] [] 1 =
      some (.error (.unmet unmetReqC.key (renderParent unmetSeed))) :=
  (closure_walk_unmet_dependency unmetIdx unmetSeed unmetReqC unmetInstalledA
    [] [] [] [pairOf unmetSeed] [] 0 (by decide) (by decide)
    (by intro r hr; simp at hr) (by decide)).1

/-! ## Reconciliation lemmas -/

theorem contains_self_all {α : Type} [DecidableEq α] (l : List α) :
    l.all (fun s => l.contains s) = true := by
  rw [List.all_eq_true]
  intro s hs
  exact (List.elem_iff).mpr hs

theorem eqv_refl (r : Req) : Req.eqv r r = true := by
  simp only [Req.eqv, Bool.and_eq_true, beq_self_eq_true]
  refine ⟨⟨⟨⟨⟨trivial, ?_⟩, ?_⟩, ?_⟩, ?_⟩, trivial⟩ <;>
    · rw [List.all_eq_true]
      intro s hs
      exact (List.elem_iff).mpr hs

theorem reqDiff_nil_of_all (a b : List Req)
    (h : a.all (fun r => b.any (fun e => Req.eqv r e)) = true) : reqDiff a b = [] := by
  unfold reqDiff
  rw [List.filter_eq_nil_iff]
  intro r hr
  have := (List.all_eq_true.mp h) r hr
  simp only [this, Bool.not_true, Bool.false_eq_true, not_false_eq_true]

theorem checkEnvironment_ok_of_eqv (E : List String) (declared : List Req)
    (pin minimal : String) (expected : List Req)
    (hp : parseExpected E = .ok expected)
    (he : reqSetEqv declared expected = true) :
    checkEnvironment E declared pin minimal = .ok () := by
  rw [reqSetEqv, Bool.and_eq_true] at he
  have d1 := reqDiff_nil_of_all declared expected he.1
  have d2 := reqDiff_nil_of_all expected declared he.2
  simp [checkEnvironment, hp, d1, d2]

/-- C1: per checked environment, the reconciliation raises the
pinned-but-not-required failure iff `declared − expected` is non-empty;
otherwise it raises required-but-not-pinned iff `expected − declared` is
non-empty; it reports no error iff the two sets are equal — and in
particular the whole `test_top_level_dependencies` run reports no error
when each pin file equals the closure of its minimal manifest plus the
minimal manifest's own pins exactly. -/
theorem reconciliation_diffs_and_completeness
    (expectedStrs : List String) (declared : List Req) (pin minimal : String)
    (expected : List Req) (hp : parseExpected expectedStrs = .ok expected) :
    ((∃ l, checkEnvironment expectedStrs declared pin minimal =
        .error (.pinnedButNotRequired pin minimal l)) ↔ reqDiff declared expected ≠ []) ∧
    (reqDiff declared expected = [] →
      ((∃ l, checkEnvironment expectedStrs declared pin minimal =
          .error (.requiredButNotPinned pin minimal l)) ↔ reqDiff expected declared ≠ [])) ∧
    (checkEnvironment expectedStrs declared pin minimal = .ok () ↔
      (reqDiff declared expected = [] ∧ reqDiff expected declared = [])) ∧
    (reqSetEqv declared expected = true →
      checkEnvironment expectedStrs declared pin minimal = .ok ()) ∧
    (∀ (idx : List InstalledPackage) (pm pins : List Req) (S : List String) (E2 : List Req),
      _expected_pinned idx pm "requirements-minimal.txt" "requirements.txt" = .ok S →
      parseExpected S = .ok E2 → reqSetEqv pins E2 = true →
      test_top_level_dependencies idx pm none (some pins) none = .ok ()) ∧
    (∀ (idx : List InstalledPackage) (pm dm ppins dpins : List Req)
        (S SD : List String) (E2 ED : List Req),
      _expected_pinned idx pm "requirements-minimal.txt" "requirements.txt" = .ok S →
      _expected_pinned idx dm "requirements-dev-minimal.txt" "requirements-dev.txt" = .ok SD →
      parseExpected S = .ok E2 →
      parseExpected (SD.filter (fun s => !(S.contains s))) = .ok ED →
      reqSetEqv ppins E2 = true → reqSetEqv dpins ED = true →
      test_top_level_dependencies idx pm (some dm) (some ppins) (some dpins) = .ok ()) := by
  have hCok : reqDiff declared expected = [] → reqDiff expected declared = [] →
      checkEnvironment expectedStrs declared pin minimal = .ok () := by
    intro h1 h2
    simp [checkEnvironment, hp, h1, h2]
  have hCp : ∀ a t, reqDiff declared expected = a :: t →
      checkEnvironment expectedStrs declared pin minimal =
        .error (.pinnedButNotRequired pin minimal (a :: t)) := by
    intro a t hX
    simp [checkEnvironment, hp, hX]
  have hCr : ∀ a t, reqDiff declared expected = [] → reqDiff expected declared = a :: t →
      checkEnvironment expectedStrs declared pin minimal =
        .error (.requiredButNotPinned pin minimal (a :: t)) := by
    intro a t h1 hX
    simp [checkEnvironment, hp, h1, hX]
  refine ⟨?_, ?_, ?_, ?_, ?_, ?_⟩
  · constructor
    · rintro ⟨l, hl⟩ h1
      cases hX : reqDiff expected declared with
      | nil => rw [hCok h1 hX] at hl; simp at hl
      | cons a t => rw [hCr a t h1 hX] at hl; simp at hl
    · intro h1
      cases hX : reqDiff declared expected with
      | nil => exact absurd hX h1
      | cons a t => exact ⟨a :: t, hCp a t hX⟩
  · intro h1
    constructor
    · rintro ⟨l, hl⟩ h2
      rw [hCok h1 h2] at hl
      simp at hl
    · intro h2
      cases hX : reqDiff expected declared with
      | nil => exact absurd hX h2
      | cons a t => exact ⟨a :: t, hCr a t h1 hX⟩
  · constructor
    · intro hok
      by_cases h1 : reqDiff declared expected = []
      · by_cases h2 : reqDiff expected declared = []
        · exact ⟨h1, h2⟩
        · cases hX : reqDiff expected declared with
          | nil => exact absurd hX h2
          | cons a t => rw [hCr a t h1 hX] at hok; simp at hok
      · cases hX : reqDiff declared expected with
        | nil => exact absurd hX h1
        | cons a t => rw [hCp a t hX] at hok; simp at hok
    · rintro ⟨h1, h2⟩
      exact hCok h1 h2
  · intro he
    exact checkEnvironment_ok_of_eqv expectedStrs declared pin minimal expected hp he
  · intro idx pm pins S E2 hS hE2 heq
    simp only [test_top_level_dependencies, hS, Option.getD_some]
    exact checkEnvironment_ok_of_eqv S pins _ _ E2 hE2 heq
  · intro idx pm dm ppins dpins S SD E2 ED hS hSD hE2 hED hpeq hdeq
    simp only [test_top_level_dependencies, hS, hSD, Option.getD_some]
    rw [checkEnvironment_ok_of_eqv S ppins _ _ E2 hE2 hpeq]
    exact checkEnvironment_ok_of_eqv _ dpins _ _ ED hED hdeq

/-- Concrete fixtures for the reconciliation witnesses: `a==1` requires
`b==2`. -/
def recReqA1 : Req := ⟨"a", [], [("==", "1")], none⟩

def recReqB2 : Req := ⟨"b", [], [("==", "2")], none⟩

def recIdx2 : List InstalledPackage :=
  [⟨"a", "1", [⟨"b", [], [], none⟩], []⟩, ⟨"b", "2", [], []⟩]

/-- Witness: with `a` requiring `b`, minimal `a==1` and pin file
`a==1, b==2`, the whole reconciliation reports no error. -/
theorem reconciliation_diffs_and_completeness_witness :
    test_top_level_dependencies recIdx2 [recReqA1] none (some [recReqA1, recReqB2]) none =
      .ok () :=
  (reconciliation_diffs_and_completeness ["a==1", "b==2"] [recReqA1, recReqB2]
      "requirements.txt" "requirements-minimal.txt" [recReqA1, recReqB2]
      (by decide)).2.2.2.2.1
    recIdx2 [recReqA1] [recReqA1, recReqB2] ["a==1", "b==2"] [recReqA1, recReqB2]
    (by decide) (by decide) (by decide)

/-! ## The dev/prod overlap behaviour -/

theorem flatMap_const_nil {α β : Type} (l : List α) :
    (l.flatMap (fun _ => ([] : List β))) = [] := by
  induction l with
  | nil => rfl
  | cons x xs ih => simp only [List.flatMap_cons, List.nil_append, ih]

theorem requiresOf_empty (k v : String) (es : List String) :
    requiresOf ⟨k, v, [], []⟩ es = [] := by
  simp only [requiresOf, List.nil_append]
  have hfn : (fun e : String =>
      match ([] : List (String × List Req)).find? (fun q => q.1 == e) with
      | some q => q.2
      | none => ([] : List Req)) = fun _ => ([] : List Req) := by
    funext e; rfl
  rw [hfn, flatMap_const_nil]

theorem lookup_single (k v : String) (r : Req) (h : r.key = k) :
    lookupIndex [⟨k, v, [], []⟩] r.key = some ⟨k, v, [], []⟩ := by
  simp [lookupIndex, List.find?, h]

theorem closure_single (k v : String) (r : Req) (h : r.key = k) :
    get_pinned_versions_from_requirement [⟨k, v, [], []⟩] r = .ok [] := by
  have hfuel : walkFuel [⟨k, v, [], []⟩] = 1 := by
    simp [walkFuel, allPairs, allIndexReqs]
  simp only [get_pinned_versions_from_requirement, hfuel]
  simp only [walkLoop, lookup_single k v r h, requiresOf_empty, processSubs]
  rfl

theorem expected_single (k v : String) (r : Req) (h : r.key = k) (f1 f2 : String) :
    _expected_pinned [⟨k, v, [], []⟩] [r] f1 f2 = .ok [k ++ "==" ++ v] := by
  simp only [_expected_pinned, expectedPinnedGo, lookup_single k v r h,
    closure_single k v r h]
  simp [strUnion, strInsert, h]

/-- C4: the prod expected set is subtracted from the dev expected set before
the surplus/missing diffs, so a package required by both minimal manifests
and pinned identically in both pin files is reported as a dev-pin surplus
against `requirements-dev.txt` — while the same prod-only configuration
reports no error. -/
theorem dev_overlap_reported_as_dev_surplus (k v : String) (r : Req)
    (h1 : parse_requirement (k ++ "==" ++ v) = some r) (h2 : r.key = k) :
    test_top_level_dependencies [⟨k, v, [], []⟩] [r] (some [r]) (some [r]) (some [r]) =
      .error (.pinnedButNotRequired "requirements-dev.txt" "requirements-dev-minimal.txt"
        [r]) ∧
    test_top_level_dependencies [⟨k, v, [], []⟩] [r] none (some [r]) (some [r]) = .ok () := by
  have hexp1 := expected_single k v r h2 "requirements-minimal.txt" "requirements.txt"
  have hexp2 := expected_single k v r h2 "requirements-dev-minimal.txt" "requirements-dev.txt"
  have hparse : parseExpected [k ++ "==" ++ v] = .ok [r] := by
    simp [parseExpected, h1]
  have hok : checkEnvironment [k ++ "==" ++ v] [r] "requirements.txt"
      "requirements-minimal.txt" = .ok () := by
    apply checkEnvironment_ok_of_eqv _ _ _ _ [r] hparse
    simp [reqSetEqv, eqv_refl r]
  have hfil : ([k ++ "==" ++ v].filter
      (fun s => !(([k ++ "==" ++ v] : List String).contains s))) = ([] : List String) := by
    simp
  constructor
  · simp only [test_top_level_dependencies, hexp1, hexp2, Option.getD_some, hfil, hok]
    simp [checkEnvironment, parseExpected, reqDiff]
  · simp only [test_top_level_dependencies, hexp1, Option.getD_some]
    exact hok

/-- Witness for the dev/prod overlap theorem: `a==1` in both minimal files
and both pin files is a dev surplus. -/
theorem dev_overlap_reported_as_dev_surplus_witness :
    test_top_level_dependencies [⟨"a", "1", [], []⟩] [recReqA1] (some [recReqA1])
      (some [recReqA1]) (some [recReqA1]) =
      .error (.pinnedButNotRequired "requirements-dev.txt" "requirements-dev-minimal.txt"
        [recReqA1]) :=
  (dev_overlap_reported_as_dev_surplus "a" "1" recReqA1 (by decide) (by decide)).1

/-! ## The pinned-versions dict and `find_unpinned_requirements` -/

/-- The declared requirement whose occurrence of `k` is last in input order
(the one whose `to_version` the dict comprehension keeps). -/
def lastDecl (reqs : List (Req × String)) (k : String) : Option Req :=
  ((reqs.filter (fun rf => rf.1.key == k)).map Prod.fst).getLast?

theorem dictGet_map_self (m : List (String × Option String)) (k : String) (v : Option String)
    (h : m.any (fun q => q.1 == k) = true) :
    dictGet (m.map (fun q => if q.1 == k then (k, v) else q)) k = v := by
  induction m with
  | nil => simp at h
  | cons q m ih =>
    simp only [List.map_cons, dictGet, List.find?]
    by_cases hq : (q.1 == k) = true
    · simp [hq]
    · simp only [List.any_cons, hq, Bool.false_or] at h
      have := ih h
      simp only [dictGet] at this
      simp only [hq, Bool.false_eq_true, if_false]
      exact this

theorem dictGet_map_other (m : List (String × Option String)) (k' k : String) (v : Option String)
    (hne : (k' == k) = false) :
    dictGet (m.map (fun q => if q.1 == k' then (k', v) else q)) k = dictGet m k := by
  induction m with
  | nil => rfl
  | cons q m ih =>
    simp only [List.map_cons, dictGet, List.find?]
    by_cases hq : (q.1 == k') = true
    · have hqk : (q.1 == k) = false := by
        have hq1 : q.1 = k' := eq_of_beq hq
        rw [hq1]; exact hne
      simp only [hq, if_true, hne, hqk, Bool.false_eq_true, if_false]
      simpa [dictGet] using ih
    · simp only [hq, Bool.false_eq_true, if_false]
      by_cases hqk : (q.1 == k) = true
      · simp [hqk]
      · simp only [hqk, Bool.false_eq_true, if_false]
        simpa [dictGet] using ih

theorem dictGet_insert_self (m : List (String × Option String)) (k : String) (v : Option String) :
    dictGet (insertAssoc m k v) k = v := by
  unfold insertAssoc
  by_cases h : m.any (fun q => q.1 == k) = true
  · rw [if_pos h]
    exact dictGet_map_self m k v h
  · rw [if_neg h]
    have hnone : m.find? (fun q => q.1 == k) = none := by
      rw [List.find?_eq_none]
      intro q hq hcon
      exact h (List.any_eq_true.mpr ⟨q, hq, hcon⟩)
    unfold dictGet
    rw [List.find?_append, hnone]
    simp [List.find?]

theorem dictGet_insert_other (m : List (String × Option String)) (k' k : String)
    (v : Option String) (hne : (k' == k) = false) :
    dictGet (insertAssoc m k' v) k = dictGet m k := by
  unfold insertAssoc
  by_cases h : m.any (fun q => q.1 == k') = true
  · rw [if_pos h]
    exact dictGet_map_other m k' k v hne
  · rw [if_neg h]
    unfold dictGet
    rw [List.find?_append]
    have hlast : ([(k', v)].find? (fun q => q.1 == k)) = none := by
      simp [List.find?, hne]
    rw [hlast]
    cases m.find? (fun q => q.1 == k) <;> rfl

theorem dictHasKey_map_replace (m : List (String × Option String)) (k' k : String)
    (v : Option String) :
    dictHasKey (m.map (fun q => if q.1 == k' then (k', v) else q)) k = dictHasKey m k := by
  induction m with
  | nil => rfl
  | cons q m ih =>
    unfold dictHasKey at *
    simp only [List.map_cons, List.any_cons, ih]
    congr 1
    by_cases hq : (q.1 == k') = true
    · have hq1 : q.1 = k' := eq_of_beq hq
      simp [hq, hq1]
    · simp [hq]

theorem dictHasKey_insert (m : List (String × Option String)) (k' k : String)
    (v : Option String) :
    dictHasKey (insertAssoc m k' v) k = (dictHasKey m k || (k' == k)) := by
  unfold insertAssoc
  by_cases h : m.any (fun q => q.1 == k') = true
  · rw [if_pos h, dictHasKey_map_replace]
    by_cases hk : (k' == k) = true
    · have : dictHasKey m k = true := by
        have hk1 : k' = k := eq_of_beq hk
        rw [← hk1]
        exact h
      simp [this, hk]
    · simp only [hk, Bool.or_false]
  · rw [if_neg h]
    unfold dictHasKey
    rw [List.any_append]
    simp [List.any_cons]

theorem to_pinned_versions_append (reqs : List (Req × String)) (rf : Req × String) :
    to_pinned_versions (reqs ++ [rf]) =
      insertAssoc (to_pinned_versions reqs) rf.1.key (to_version rf.1) := by
  unfold to_pinned_versions
  rw [List.foldl_append]
  rfl

theorem lastDecl_append (reqs : List (Req × String)) (rf : Req × String) (k : String) :
    lastDecl (reqs ++ [rf]) k =
      (if rf.1.key == k then some rf.1 else lastDecl reqs k) := by
  unfold lastDecl
  rw [List.filter_append]
  by_cases h : (rf.1.key == k) = true
  · rw [if_pos h]
    have hf : List.filter (fun q => q.1.key == k) [rf] = [rf] := by
      simp [List.filter, h]
    rw [hf, List.map_append]
    exact List.getLast?_concat _
  · rw [if_neg h]
    have hf : List.filter (fun q => q.1.key == k) [rf] = [] := by
      simp only [List.filter_cons]
      simp only [h, Bool.false_eq_true, if_false, List.filter_nil]
    rw [hf, List.append_nil]

theorem dictGet_to_pinned (reqs : List (Req × String)) (k : String) :
    dictGet (to_pinned_versions reqs) k = Option.bind (lastDecl reqs k) to_version := by
  induction reqs using List.reverseRecOn with
  | nil => rfl
  | append_singleton reqs rf ih =>
    rw [to_pinned_versions_append, lastDecl_append]
    by_cases h : (rf.1.key == k) = true
    · have hk : rf.1.key = k := eq_of_beq h
      rw [if_pos h, ← hk]
      rw [dictGet_insert_self]
      rfl
    · have h' : (rf.1.key == k) = false := by revert h; cases rf.1.key == k <;> simp
      rw [if_neg h, dictGet_insert_other _ _ _ _ h', ih]

theorem dictHasKey_to_pinned (reqs : List (Req × String)) (k : String) :
    dictHasKey (to_pinned_versions reqs) k = reqs.any (fun rf => rf.1.key == k) := by
  induction reqs using List.reverseRecOn with
  | nil => rfl
  | append_singleton reqs rf ih =>
    rw [to_pinned_versions_append, dictHasKey_insert, ih, List.any_append]
    simp [List.any_cons]

theorem mem_tripleInsert (acc : List (String × Req × String)) (y x : String × Req × String) :
    x ∈ tripleInsert acc y ↔ x ∈ acc ∨ x = y := by
  unfold tripleInsert
  by_cases h : y ∈ acc
  · rw [if_pos h]
    constructor
    · exact Or.inl
    · rintro (hx | rfl)
      · exact hx
      · exact h
  · rw [if_neg h]
    simp [List.mem_append]

theorem foldl_insert_pos_mem {α : Type} (g : α → Bool) (h : α → String × Req × String)
    (l : List α) :
    ∀ (a0 : List (String × Req × String)) (x : String × Req × String),
      x ∈ l.foldl (fun a y => if g y then tripleInsert a (h y) else a) a0 ↔
        x ∈ a0 ∨ ∃ y ∈ l, g y = true ∧ x = h y := by
  induction l with
  | nil => intro a0 x; simp
  | cons y l ih =>
    intro a0 x
    simp only [List.foldl_cons]
    by_cases hg : g y = true
    · rw [if_pos hg, ih, mem_tripleInsert]
      constructor
      · rintro (⟨hx | rfl⟩ | ⟨z, hz, hgz, rfl⟩)
        · exact Or.inl hx
        · exact Or.inr ⟨y, List.mem_cons_self _ _, hg, rfl⟩
        · exact Or.inr ⟨z, List.mem_cons_of_mem _ hz, hgz, rfl⟩
      · rintro (hx | ⟨z, hz, hgz, rfl⟩)
        · exact Or.inl (Or.inl hx)
        · rcases List.mem_cons.mp hz with rfl | hz'
          · exact Or.inl (Or.inr rfl)
          · exact Or.inr ⟨z, hz', hgz, rfl⟩
    · rw [if_neg hg, ih]
      constructor
      · rintro (hx | ⟨z, hz, hgz, rfl⟩)
        · exact Or.inl hx
        · exact Or.inr ⟨z, List.mem_cons_of_mem _ hz, hgz, rfl⟩
      · rintro (hx | ⟨z, hz, hgz, rfl⟩)
        · exact Or.inl hx
        · rcases List.mem_cons.mp hz with rfl | hz'
          · exact absurd hgz hg
          · exact Or.inr ⟨z, hz', hgz, rfl⟩

theorem foldl_insert_neg_mem {α : Type} (g : α → Bool) (h : α → String × Req × String)
    (l : List α) :
    ∀ (a0 : List (String × Req × String)) (x : String × Req × String),
      x ∈ l.foldl (fun a y => if g y then a else tripleInsert a (h y)) a0 ↔
        x ∈ a0 ∨ ∃ y ∈ l, g y = false ∧ x = h y := by
  induction l with
  | nil => intro a0 x; simp
  | cons y l ih =>
    intro a0 x
    simp only [List.foldl_cons]
    by_cases hg : g y = true
    · rw [if_pos hg, ih]
      constructor
      · rintro (hx | ⟨z, hz, hgz, rfl⟩)
        · exact Or.inl hx
        · exact Or.inr ⟨z, List.mem_cons_of_mem _ hz, hgz, rfl⟩
      · rintro (hx | ⟨z, hz, hgz, rfl⟩)
        · exact Or.inl hx
        · rcases List.mem_cons.mp hz with rfl | hz'
          · rw [hg] at hgz; exact absurd hgz (by simp)
          · exact Or.inr ⟨z, hz', hgz, rfl⟩
    · have hg' : g y = false := by revert hg; cases g y <;> simp
      rw [if_neg hg, ih, mem_tripleInsert]
      constructor
      · rintro (⟨hx | rfl⟩ | ⟨z, hz, hgz, rfl⟩)
        · exact Or.inl hx
        · exact Or.inr ⟨y, List.mem_cons_self _ _, hg', rfl⟩
        · exact Or.inr ⟨z, List.mem_cons_of_mem _ hz, hgz, rfl⟩
      · rintro (hx | ⟨z, hz, hgz, rfl⟩)
        · exact Or.inl (Or.inl hx)
        · rcases List.mem_cons.mp hz with rfl | hz'
          · exact Or.inl (Or.inr rfl)
          · exact Or.inr ⟨z, hz', hgz, rfl⟩

theorem unpinnedGo_mem (idx : List InstalledPackage) (pv : List (String × Option String)) :
    ∀ (reqs : List (Req × String)) (a0 : List (String × Req × String)),
      (∀ rf ∈ reqs, (lookupIndex idx rf.1.key).isSome) →
      ∃ u, unpinnedGo idx pv reqs a0 = .ok u ∧
        ∀ x, x ∈ u ↔ x ∈ a0 ∨
          ∃ rf ∈ reqs, ∃ p, lookupIndex idx rf.1.key = some p ∧
            ∃ sub ∈ requiresOf p rf.1.extras,
              dictHasKey pv sub.key = false ∧ x = (sub.key, rf.1, rf.2) := by
  intro reqs
  induction reqs with
  | nil =>
    intro a0 _
    exact ⟨a0, rfl, by intro x; simp⟩
  | cons rf reqs ih =>
    obtain ⟨r, f⟩ := rf
    intro a0 hall
    obtain ⟨p, hp⟩ := Option.isSome_iff_exists.mp (hall (r, f) (List.mem_cons_self _ _))
    have hp' : lookupIndex idx r.key = some p := hp
    obtain ⟨u, hu, hmem⟩ :=
      ih ((requiresOf p r.extras).foldl
          (fun a sub => if dictHasKey pv sub.key then a else tripleInsert a (sub.key, r, f)) a0)
        (fun rf' h' => hall rf' (List.mem_cons_of_mem _ h'))
    refine ⟨u, ?_, ?_⟩
    · show unpinnedGo idx pv ((r, f) :: reqs) a0 = .ok u
      unfold unpinnedGo
      rw [hp']
      exact hu
    · intro x
      have hacc : ∀ y, y ∈ (requiresOf p r.extras).foldl
          (fun a sub => if dictHasKey pv sub.key then a else tripleInsert a (sub.key, r, f)) a0 ↔
          y ∈ a0 ∨ ∃ sub ∈ requiresOf p r.extras,
            dictHasKey pv sub.key = false ∧ y = (sub.key, r, f) := fun y =>
        foldl_insert_neg_mem (fun sub => dictHasKey pv sub.key)
          (fun sub => (sub.key, r, f)) (requiresOf p r.extras) a0 y
      rw [hmem x, hacc x]
      constructor
      · rintro (⟨hx | ⟨sub, hs, hk, rfl⟩⟩ | ⟨rf', h', hrest⟩)
        · exact Or.inl hx
        · exact Or.inr ⟨(r, f), List.mem_cons_self _ _, p, hp', sub, hs, hk, rfl⟩
        · exact Or.inr ⟨rf', List.mem_cons_of_mem _ h', hrest⟩
      · rintro (hx | ⟨rf', h', p', hp2, sub, hs, hk, hx⟩)
        · exact Or.inl (Or.inl hx)
        · rcases List.mem_cons.mp h' with rfl | h''
          · have hp2' : lookupIndex idx r.key = some p' := hp2
            rw [hp'] at hp2'
            cases hp2'
            exact Or.inl (Or.inr ⟨sub, hs, hk, hx⟩)
          · exact Or.inr ⟨rf', h'', p', hp2, sub, hs, hk, hx⟩

/-- Membership characterisation of `find_unpinned_requirements`: a triple is
in the result iff it is a declared requirement whose pinned-versions entry is
falsy, or an immediate dependency of a declared requirement whose key is
declared nowhere. -/
theorem find_unpinned_mem_iff (idx : List InstalledPackage) (reqs : List (Req × String))
    (hall : ∀ rf ∈ reqs, (lookupIndex idx rf.1.key).isSome) :
    ∃ u, find_unpinned_requirements idx reqs = .ok u ∧
      ∀ x, x ∈ u ↔
        (∃ rf ∈ reqs, falsyVal (dictGet (to_pinned_versions reqs) rf.1.key) = true ∧
            x = (rf.1.key, rf.1, rf.2)) ∨
        (∃ rf ∈ reqs, ∃ p, lookupIndex idx rf.1.key = some p ∧
            ∃ sub ∈ requiresOf p rf.1.extras,
              reqs.any (fun rf2 => rf2.1.key == sub.key) = false ∧
              x = (sub.key, rf.1, rf.2)) := by
  obtain ⟨u, hu, hmem⟩ := unpinnedGo_mem idx (to_pinned_versions reqs) reqs
    (reqs.foldl
      (fun a rf => if falsyVal (dictGet (to_pinned_versions reqs) rf.1.key) then
        tripleInsert a (rf.1.key, rf.1, rf.2) else a)
      []) hall
  refine ⟨u, hu, ?_⟩
  intro x
  have hpart1 : ∀ y, y ∈ (reqs.foldl
      (fun a rf => if falsyVal (dictGet (to_pinned_versions reqs) rf.1.key) then
        tripleInsert a (rf.1.key, rf.1, rf.2) else a)
      ([] : List (String × Req × String))) ↔
      y ∈ ([] : List (String × Req × String)) ∨
        ∃ rf ∈ reqs, falsyVal (dictGet (to_pinned_versions reqs) rf.1.key) = true ∧
          y = (rf.1.key, rf.1, rf.2) := fun y =>
    foldl_insert_pos_mem (fun rf => falsyVal (dictGet (to_pinned_versions reqs) rf.1.key))
      (fun rf => (rf.1.key, rf.1, rf.2)) reqs [] y
  rw [hmem x, hpart1 x]
  simp only [List.mem_nil_iff, false_or]
  constructor
  · rintro (h1 | ⟨rf, hrf, p, hp, sub, hs, hk, hx⟩)
    · exact Or.inl h1
    · refine Or.inr ⟨rf, hrf, p, hp, sub, hs, ?_, hx⟩
      rw [← dictHasKey_to_pinned]
      exact hk
  · rintro (h1 | ⟨rf, hrf, p, hp, sub, hs, hk, hx⟩)
    · exact Or.inl h1
    · refine Or.inr ⟨rf, hrf, p, hp, sub, hs, ?_, hx⟩
      rw [dictHasKey_to_pinned]
      exact hk

/-! ## Fixtures for `find_unpinned_requirements` -/

def reqABare : Req := ⟨"a", [], [], none⟩

def dupIdxA : List InstalledPackage := [⟨"a", "1", [], []⟩]

def dupReqs : List (Req × String) := [(recReqA1, "f1"), (reqABare, "f2")]

def dupResult : List (String × Req × String) :=
  [("a", recReqA1, "f1"), ("a", reqABare, "f2")]

def flakeReq : Req := ⟨"flake8", [], [("==", "2.3.0")], none⟩

def flakeIdx : List InstalledPackage :=
  [⟨"flake8", "2.3.0",
    [⟨"mccabe", [], [], none⟩, ⟨"pep8", [], [], none⟩, ⟨"pyflakes", [], [], none⟩], []⟩]

def flakeReqs : List (Req × String) := [(flakeReq, "requirements.txt")]

/-- C8 counterexample: with `a==1` declared in `f1` and a bare `a` declared
later in `f2`, the result contains `("a", a==1, "f1")`, although `a==1` does
not lack a `==` pin and has no immediate dependencies — so the result is not
exactly the set the claim describes. -/
theorem find_unpinned_not_exactly_as_claimed :
    find_unpinned_requirements dupIdxA dupReqs = .ok dupResult ∧
    ("a", recReqA1, "f1") ∈ dupResult ∧
    ¬ ((∃ rf ∈ dupReqs, to_version rf.1 = none ∧
          ("a", recReqA1, "f1") = (rf.1.key, rf.1, rf.2)) ∨
       (∃ rf ∈ dupReqs, ∃ p, lookupIndex dupIdxA rf.1.key = some p ∧
          ∃ sub ∈ requiresOf p rf.1.extras,
            (¬ ∃ rf2 ∈ dupReqs, rf2.1.key = sub.key) ∧
            ("a", recReqA1, "f1") = (sub.key, rf.1, rf.2))) := by
  refine ⟨by decide, by decide, ?_⟩
  rintro (⟨rf, hrf, hv, heq⟩ | ⟨rf, hrf, p, hp, sub, hs, _, heq⟩)
  · simp only [dupReqs, List.mem_cons, List.mem_singleton] at hrf
    rcases hrf with rfl | hrf
    · exact absurd hv (by decide)
    · rcases hrf with rfl | hrf
      · exact absurd heq (by decide)
      · simp at hrf
  · simp only [dupReqs, List.mem_cons, List.mem_singleton] at hrf
    rcases hrf with rfl | hrf
    · have hA : lookupIndex dupIdxA (recReqA1, "f1").1.key =
          some (⟨"a", "1", [], []⟩ : InstalledPackage) := by decide
      rw [hA] at hp
      cases hp
      have : requiresOf (⟨"a", "1", [], []⟩ : InstalledPackage) (recReqA1, "f1").1.extras =
          [] := by decide
      rw [this] at hs
      exact absurd hs (List.not_mem_nil _)
    · rcases hrf with rfl | hrf
      · have hA : lookupIndex dupIdxA (reqABare, "f2").1.key =
            some (⟨"a", "1", [], []⟩ : InstalledPackage) := by decide
        rw [hA] at hp
        cases hp
        have : requiresOf (⟨"a", "1", [], []⟩ : InstalledPackage) (reqABare, "f2").1.extras =
            [] := by decide
        rw [this] at hs
        exact absurd hs (List.not_mem_nil _)
      · simp at hrf

/-- C8 amended: a triple is in `find_unpinned_requirements` iff it is (1) a
declared occurrence whose key's pin status — decided by the last declared
occurrence of that key — is not an exact `==` pin, or (2) an immediate
dependency of a declared requirement whose key is declared nowhere; on the
flake8 fixture the result is exactly the three entries attributed to
`flake8==2.3.0`. -/
theorem find_unpinned_entries_amended (idx : List InstalledPackage)
    (reqs : List (Req × String))
    (hall : ∀ rf ∈ reqs, (lookupIndex idx rf.1.key).isSome) :
    (∃ u, find_unpinned_requirements idx reqs = .ok u ∧
      ∀ x, x ∈ u ↔
        (∃ rf ∈ reqs, falsyVal (Option.bind (lastDecl reqs rf.1.key) to_version) = true ∧
            x = (rf.1.key, rf.1, rf.2)) ∨
        (∃ rf ∈ reqs, ∃ p, lookupIndex idx rf.1.key = some p ∧
            ∃ sub ∈ requiresOf p rf.1.extras,
              reqs.any (fun rf2 => rf2.1.key == sub.key) = false ∧
              x = (sub.key, rf.1, rf.2))) ∧
    find_unpinned_requirements flakeIdx flakeReqs =
      .ok [("mccabe", flakeReq, "requirements.txt"),
           ("pep8", flakeReq, "requirements.txt"),
           ("pyflakes", flakeReq, "requirements.txt")] := by
  constructor
  · obtain ⟨u, hu, hmem⟩ := find_unpinned_mem_iff idx reqs hall
    refine ⟨u, hu, fun x => ?_⟩
    rw [hmem x]
    simp only [dictGet_to_pinned]
  · decide

/-- Witness: the amended characterisation applied to the flake8 fixture. -/
theorem find_unpinned_entries_amended_witness :
    ∃ u, find_unpinned_requirements flakeIdx flakeReqs = .ok u ∧
      ∀ x, x ∈ u ↔
        (∃ rf ∈ flakeReqs,
            falsyVal (Option.bind (lastDecl flakeReqs rf.1.key) to_version) = true ∧
            x = (rf.1.key, rf.1, rf.2)) ∨
        (∃ rf ∈ flakeReqs, ∃ p, lookupIndex flakeIdx rf.1.key = some p ∧
            ∃ sub ∈ requiresOf p rf.1.extras,
              flakeReqs.any (fun rf2 => rf2.1.key == sub.key) = false ∧
              x = (sub.key, rf.1, rf.2)) :=
  (find_unpinned_entries_amended flakeIdx flakeReqs (by decide)).1

/-- C9: whether occurrences of a key are reported as unpinned is decided
solely by the last declared occurrence of that key: if the last occurrence
lacks an exact pin, every occurrence is reported; if it has one, none is. -/
theorem find_unpinned_last_occurrence_decides (idx : List InstalledPackage)
    (reqs : List (Req × String))
    (hall : ∀ rf ∈ reqs, (lookupIndex idx rf.1.key).isSome)
    (r : Req) (f : String) (hmem : (r, f) ∈ reqs)
    (rl : Req) (hlast : lastDecl reqs r.key = some rl) :
    ∃ u, find_unpinned_requirements idx reqs = .ok u ∧
      (falsyVal (to_version rl) = true → (r.key, r, f) ∈ u) ∧
      (falsyVal (to_version rl) = false → (r.key, r, f) ∉ u) := by
  obtain ⟨u, hu, hm⟩ := find_unpinned_mem_iff idx reqs hall
  have hget : dictGet (to_pinned_versions reqs) r.key = to_version rl := by
    rw [dictGet_to_pinned, hlast]
    rfl
  refine ⟨u, hu, ?_, ?_⟩
  · intro hf
    rw [hm]
    exact Or.inl ⟨(r, f), hmem, by rw [show ((r, f).1.key) = r.key from rfl, hget]; exact hf,
      rfl⟩
  · intro hf hin
    rw [hm] at hin
    rcases hin with ⟨rf, hrf, hfal, heq⟩ | ⟨rf, hrf, p, hp, sub, hs, hk, heq⟩
    · rw [Prod.ext_iff] at heq
      have h2 : r = rf.1 := by
        have := heq.2
        rw [Prod.ext_iff] at this
        exact this.1
      rw [← h2, hget, hf] at hfal
      exact Bool.false_ne_true hfal
    · rw [Prod.ext_iff] at heq
      have h1 : sub.key = r.key := heq.1.symm
      have hany : reqs.any (fun rf2 => rf2.1.key == sub.key) = true :=
        List.any_eq_true.mpr ⟨(r, f), hmem, by rw [h1]; exact beq_self_eq_true _⟩
      rw [hk] at hany
      exact Bool.false_ne_true hany

/-- Witness: on the duplicate-key fixture the last occurrence of `a` is
unpinned, so the exactly-pinned first occurrence is reported too. -/
theorem find_unpinned_last_occurrence_decides_witness :
    ∃ u, find_unpinned_requirements dupIdxA dupReqs = .ok u ∧
      (falsyVal (to_version reqABare) = true → (recReqA1.key, recReqA1, "f1") ∈ u) ∧
      (falsyVal (to_version reqABare) = false → (recReqA1.key, recReqA1, "f1") ∉ u) :=
  find_unpinned_last_occurrence_decides dupIdxA dupReqs (by decide) recReqA1 "f1"
    (by decide) reqABare (by decide)

/-! ## Properties of the normalisation functions -/

def headGood (good : Char → Bool) : List Char → Prop
  | [] => True
  | c :: _ => good c = true

def noBadPair (good : Char → Bool) : List Char → Prop
  | [] => True
  | [_] => True
  | c :: d :: rest => (good c = true ∨ good d = true) ∧ noBadPair good (d :: rest)

theorem noBadPair_tail (good : Char → Bool) (c : Char) (rest : List Char)
    (h : noBadPair good (c :: rest)) : noBadPair good rest := by
  cases rest with
  | nil => trivial
  | cons d t => exact h.2

theorem collapseRuns_cons (good : Char → Bool) (rep : Char) (b : Bool) (c : Char)
    (rest : List Char) :
    collapseRuns good rep b (c :: rest) =
      (if good c then c :: collapseRuns good rep false rest
       else if b then collapseRuns good rep true rest
       else rep :: collapseRuns good rep true rest) := rfl

theorem collapseRuns_cons_good (good : Char → Bool) (rep : Char) (b : Bool) (c : Char)
    (rest : List Char) (h : good c = true) :
    collapseRuns good rep b (c :: rest) = c :: collapseRuns good rep false rest := by
  rw [collapseRuns_cons, if_pos h]

theorem collapseRuns_cons_bad_true (good : Char → Bool) (rep : Char) (c : Char)
    (rest : List Char) (h : good c = false) :
    collapseRuns good rep true (c :: rest) = collapseRuns good rep true rest := by
  rw [collapseRuns_cons, if_neg (by rw [h]; exact Bool.false_ne_true), if_pos rfl]

theorem collapseRuns_cons_bad_false (good : Char → Bool) (rep : Char) (c : Char)
    (rest : List Char) (h : good c = false) :
    collapseRuns good rep false (c :: rest) = rep :: collapseRuns good rep true rest := by
  rw [collapseRuns_cons, if_neg (by rw [h]; exact Bool.false_ne_true),
    if_neg Bool.false_ne_true]

theorem collapseRuns_sound (good : Char → Bool) (rep : Char) :
    ∀ (cs : List Char) (b : Bool),
      (∀ c ∈ collapseRuns good rep b cs, good c = true ∨ c = rep) ∧
      noBadPair good (collapseRuns good rep b cs) ∧
      (b = true → headGood good (collapseRuns good rep b cs)) := by
  intro cs
  induction cs with
  | nil =>
    intro b
    refine ⟨by simp [collapseRuns], by exact trivial, ?_⟩
    intro _
    exact trivial
  | cons c rest ih =>
    intro b
    by_cases hg : good c = true
    · rw [collapseRuns_cons_good good rep b c rest hg]
      obtain ⟨ih1, ih2, _⟩ := ih false
      refine ⟨?_, ?_, ?_⟩
      · intro x hx
        rcases List.mem_cons.mp hx with rfl | hx'
        · exact Or.inl hg
        · exact ih1 x hx'
      · cases htail : collapseRuns good rep false rest with
        | nil => trivial
        | cons d t => exact ⟨Or.inl hg, htail ▸ ih2⟩
      · intro _
        exact hg
    · have hg' : good c = false := by revert hg; cases good c <;> simp
      cases b with
      | true =>
        rw [collapseRuns_cons_bad_true good rep c rest hg']
        obtain ⟨ih1, ih2, ih3⟩ := ih true
        exact ⟨ih1, ih2, fun _ => ih3 rfl⟩
      | false =>
        rw [collapseRuns_cons_bad_false good rep c rest hg']
        obtain ⟨ih1, ih2, ih3⟩ := ih true
        refine ⟨?_, ?_, ?_⟩
        · intro x hx
          rcases List.mem_cons.mp hx with rfl | hx'
          · exact Or.inr rfl
          · exact ih1 x hx'
        · cases htail : collapseRuns good rep true rest with
          | nil => trivial
          | cons d t =>
            have hhead := ih3 rfl
            rw [htail] at hhead
            exact ⟨Or.inr hhead, htail ▸ ih2⟩
        · intro hcon
          exact absurd hcon (by simp)

theorem collapseRuns_fix (good : Char → Bool) (rep : Char) (_hrep : good rep = false) :
    ∀ (cs : List Char),
      (∀ c ∈ cs, good c = true ∨ c = rep) → noBadPair good cs →
      (collapseRuns good rep false cs = cs ∧
       (headGood good cs → collapseRuns good rep true cs = cs)) := by
  intro cs
  induction cs with
  | nil => intro _ _; exact ⟨rfl, fun _ => rfl⟩
  | cons c rest ih =>
    intro hall hpair
    by_cases hg : good c = true
    · have hrest := ih (fun x hx => hall x (List.mem_cons_of_mem _ hx))
        (noBadPair_tail good c rest hpair)
      constructor
      · rw [collapseRuns_cons_good good rep false c rest hg, hrest.1]
      · intro _
        rw [collapseRuns_cons_good good rep true c rest hg, hrest.1]
    · have hg' : good c = false := by revert hg; cases good c <;> simp
      have hc : c = rep := (hall c (List.mem_cons_self _ _)).resolve_left hg
      cases hr : rest with
      | nil =>
        constructor
        · rw [collapseRuns_cons_bad_false good rep c [] hg']
          rw [hc]
          rfl
        · intro hhead
          exact absurd hhead hg
      | cons d t =>
        have hpair' : good c = true ∨ good d = true := by
          rw [hr] at hpair
          exact hpair.1
        have hd : good d = true := hpair'.resolve_left hg
        have ihres := ih
          (by rw [hr] at hall ⊢
              exact fun x hx => hall x (List.mem_cons_of_mem _ hx))
          (by rw [hr] at hpair ⊢
              exact hpair.2)
        rw [hr] at ihres
        constructor
        · rw [collapseRuns_cons_bad_false good rep c (d :: t) hg', ihres.2 hd, hc]
        · intro hhead
          exact absurd hhead hg

theorem collapseRuns_ne_nil (good : Char → Bool) (rep : Char) (cs : List Char)
    (h : cs ≠ []) : collapseRuns good rep false cs ≠ [] := by
  cases cs with
  | nil => exact absurd rfl h
  | cons c rest =>
    by_cases hg : good c = true
    · rw [collapseRuns_cons_good good rep false c rest hg]
      simp
    · have hg' : good c = false := by revert hg; cases good c <;> simp
      rw [collapseRuns_cons_bad_false good rep c rest hg']
      simp

/-! Character-class facts. -/

def canonVer (c : Char) : Bool := c.isAlphanum || c == '.'

theorem goodNameChar_nameChar (c : Char) (h : goodNameChar c = true) : nameChar c = true := by
  unfold goodNameChar at h
  rcases Bool.or_eq_true _ _ ▸ h with h' | h'
  · simp [nameChar, h']
  · simp [nameChar, h']

theorem goodExtraChar_nameChar (c : Char) (h : goodExtraChar c = true) : nameChar c = true := by
  unfold goodExtraChar at h
  rcases Bool.or_eq_true _ _ ▸ h with h' | h'
  · rcases Bool.or_eq_true _ _ ▸ h' with h'' | h'' <;> simp [nameChar, h'']
  · simp [nameChar, h']

theorem safeNameCs_chars (cs : List Char) : ∀ c ∈ safeNameCs cs, nameChar c = true := by
  intro c hc
  rcases (collapseRuns_sound goodNameChar '-' cs false).1 c hc with h | rfl
  · exact goodNameChar_nameChar c h
  · decide

theorem safeNameCs_ne_nil (cs : List Char) (h : cs ≠ []) : safeNameCs cs ≠ [] :=
  collapseRuns_ne_nil goodNameChar '-' cs h

theorem safeNameCs_idem (cs : List Char) : safeNameCs (safeNameCs cs) = safeNameCs cs := by
  have hs := collapseRuns_sound goodNameChar '-' cs false
  exact (collapseRuns_fix goodNameChar '-' (by decide) _ hs.1 hs.2.1).1

theorem safeExtraCs_chars (cs : List Char) : ∀ c ∈ safeExtraCs cs, nameChar c = true := by
  intro c hc
  rcases (collapseRuns_sound goodExtraChar '_' cs false).1 c hc with h | rfl
  · exact goodExtraChar_nameChar c h
  · decide

theorem safeExtraCs_ne_nil (cs : List Char) (h : cs ≠ []) : safeExtraCs cs ≠ [] :=
  collapseRuns_ne_nil goodExtraChar '_' cs h

theorem safeExtraCs_idem (cs : List Char) : safeExtraCs (safeExtraCs cs) = safeExtraCs cs := by
  have hs := collapseRuns_sound goodExtraChar '_' cs false
  exact (collapseRuns_fix goodExtraChar '_' (by decide) _ hs.1 hs.2.1).1

theorem safeVersionCs_cons (c : Char) (rest : List Char) :
    safeVersionCs (c :: rest) =
      (if (if c == ' ' then '.' else c).isAlphanum || (if c == ' ' then '.' else c) == '.'
       then (if c == ' ' then '.' else c) :: safeVersionCs rest
       else safeVersionCs rest) := rfl

theorem safeVersionCs_chars (cs : List Char) : (safeVersionCs cs).all canonVer = true := by
  induction cs with
  | nil => rfl
  | cons c rest ih =>
    rw [safeVersionCs_cons]
    by_cases h : ((if c == ' ' then '.' else c).isAlphanum
        || (if c == ' ' then '.' else c) == '.') = true
    · rw [if_pos h, List.all_cons]
      have hv : canonVer (if c == ' ' then '.' else c) = true := h
      rw [hv, Bool.true_and]
      exact ih
    · rw [if_neg h]
      exact ih

theorem canonVer_not_space (c : Char) (h : canonVer c = true) : (c == ' ') = false := by
  by_cases hc : c = ' '
  · subst hc; revert h; decide
  · exact beq_eq_false_iff_ne.mpr hc

theorem safeVersionCs_fix (cs : List Char) (h : cs.all canonVer = true) :
    safeVersionCs cs = cs := by
  induction cs with
  | nil => rfl
  | cons c rest ih =>
    rw [List.all_cons, Bool.and_eq_true] at h
    have hsp := canonVer_not_space c h.1
    rw [safeVersionCs_cons, hsp]
    have hc : canonVer c = true := h.1
    unfold canonVer at hc
    simp only [Bool.false_eq_true, if_false, hc, if_true, ih h.2]

theorem safeVersionCs_idem (cs : List Char) :
    safeVersionCs (safeVersionCs cs) = safeVersionCs cs :=
  safeVersionCs_fix _ (safeVersionCs_chars cs)

/-! More character-class facts. -/

theorem nameChar_props (c : Char) (h : nameChar c = true) :
    (c == ';') = false ∧ (c == ',') = false ∧ (c == '[') = false ∧ (c == ']') = false ∧
    spaceChar c = false := by
  have hne : c ≠ ';' ∧ c ≠ ',' ∧ c ≠ '[' ∧ c ≠ ']' ∧ c ≠ ' ' ∧ c ≠ '\t' := by
    refine ⟨?_, ?_, ?_, ?_, ?_, ?_⟩ <;> (intro heq; subst heq; revert h; decide)
  refine ⟨beq_eq_false_iff_ne.mpr hne.1, beq_eq_false_iff_ne.mpr hne.2.1,
    beq_eq_false_iff_ne.mpr hne.2.2.1, beq_eq_false_iff_ne.mpr hne.2.2.2.1, ?_⟩
  unfold spaceChar
  rw [beq_eq_false_iff_ne.mpr hne.2.2.2.2.1, beq_eq_false_iff_ne.mpr hne.2.2.2.2.2]
  rfl

theorem canonVer_props (c : Char) (h : canonVer c = true) :
    (c == ';') = false ∧ (c == ',') = false ∧ (c == '[') = false ∧ (c == ']') = false ∧
    spaceChar c = false ∧ opChar c = false ∧ versionChar c = true := by
  have hvc : versionChar c = true := by
    unfold canonVer at h
    rcases Bool.or_eq_true _ _ ▸ h with h' | h' <;> simp [versionChar, h']
  have hne : c ≠ ';' ∧ c ≠ ',' ∧ c ≠ '[' ∧ c ≠ ']' ∧ c ≠ ' ' ∧ c ≠ '\t'
      ∧ c ≠ '=' ∧ c ≠ '<' ∧ c ≠ '>' ∧ c ≠ '!' ∧ c ≠ '~' := by
    refine ⟨?_, ?_, ?_, ?_, ?_, ?_, ?_, ?_, ?_, ?_, ?_⟩ <;>
      (intro heq; subst heq; revert h; decide)
  refine ⟨beq_eq_false_iff_ne.mpr hne.1, beq_eq_false_iff_ne.mpr hne.2.1,
    beq_eq_false_iff_ne.mpr hne.2.2.1, beq_eq_false_iff_ne.mpr hne.2.2.2.1, ?_, ?_, hvc⟩
  · unfold spaceChar
    rw [beq_eq_false_iff_ne.mpr hne.2.2.2.2.1, beq_eq_false_iff_ne.mpr hne.2.2.2.2.2.1]
    rfl
  · unfold opChar
    rw [beq_eq_false_iff_ne.mpr hne.2.2.2.2.2.2.1,
      beq_eq_false_iff_ne.mpr hne.2.2.2.2.2.2.2.1,
      beq_eq_false_iff_ne.mpr hne.2.2.2.2.2.2.2.2.1,
      beq_eq_false_iff_ne.mpr hne.2.2.2.2.2.2.2.2.2.1,
      beq_eq_false_iff_ne.mpr hne.2.2.2.2.2.2.2.2.2.2]
    rfl

theorem opChar_props (c : Char) (h : opChar c = true) :
    nameChar c = false ∧ (c == ';') = false ∧ (c == ',') = false ∧ (c == '[') = false ∧
    spaceChar c = false := by
  unfold opChar at h
  simp only [Bool.or_eq_true] at h
  rcases h with ((((h | h) | h) | h) | h) <;>
    (have hc := eq_of_beq h; subst hc; exact ⟨by decide, by decide, by decide, by decide,
      by decide⟩)

theorem validOps_facts : ∀ op ∈ validOps, op ≠ [] ∧ op.all opChar = true := by decide

/-! List-of-char splitting and joining. -/

theorem takeWhile_all_append (p : Char → Bool) (xs ys : List Char) (h : xs.all p = true) :
    (xs ++ ys).takeWhile p = xs ++ ys.takeWhile p := by
  induction xs with
  | nil => simp
  | cons x xs ih =>
    rw [List.all_cons, Bool.and_eq_true] at h
    simp only [List.cons_append, List.takeWhile_cons, h.1, if_true, ih h.2]

theorem dropWhile_all_append (p : Char → Bool) (xs ys : List Char) (h : xs.all p = true) :
    (xs ++ ys).dropWhile p = ys.dropWhile p := by
  induction xs with
  | nil => simp
  | cons x xs ih =>
    rw [List.all_cons, Bool.and_eq_true] at h
    simp only [List.cons_append, List.dropWhile_cons, h.1, if_true, ih h.2]

theorem takeWhile_head_false (p : Char → Bool) (y : Char) (ys : List Char)
    (h : p y = false) : (y :: ys).takeWhile p = [] := by
  simp [List.takeWhile_cons, h]

theorem dropWhile_head_false (p : Char → Bool) (y : Char) (ys : List Char)
    (h : p y = false) : (y :: ys).dropWhile p = y :: ys := by
  simp [List.dropWhile_cons, h]

theorem dropWhile_all_false (p : Char → Bool) (cs : List Char)
    (h : ∀ c ∈ cs, p c = false) : cs.dropWhile p = cs := by
  cases cs with
  | nil => rfl
  | cons c rest => exact dropWhile_head_false p c rest (h c (List.mem_cons_self _ _))

theorem trimL_no_space (cs : List Char) (h : ∀ c ∈ cs, spaceChar c = false) :
    trimL cs = cs :=
  dropWhile_all_false spaceChar cs h

theorem trimCs_no_space (cs : List Char) (h : ∀ c ∈ cs, spaceChar c = false) :
    trimCs cs = cs := by
  unfold trimCs trimR
  rw [trimL_no_space cs h]
  rw [dropWhile_all_false spaceChar cs.reverse (fun c hc => h c (List.mem_reverse.mp hc))]
  exact List.reverse_reverse cs

theorem splitFirst_not_mem (sep : Char) (cs : List Char)
    (h : ∀ c ∈ cs, (c == sep) = false) : splitFirst sep cs = (cs, none) := by
  induction cs with
  | nil => rfl
  | cons c rest ih =>
    simp only [splitFirst, h c (List.mem_cons_self _ _), Bool.false_eq_true, if_false]
    rw [ih (fun x hx => h x (List.mem_cons_of_mem _ hx))]

theorem splitFirst_append (sep : Char) (xs ys : List Char)
    (h : ∀ c ∈ xs, (c == sep) = false) :
    splitFirst sep (xs ++ sep :: ys) = (xs, some ys) := by
  induction xs with
  | nil => simp [splitFirst]
  | cons x xs ih =>
    simp only [List.cons_append, splitFirst, h x (List.mem_cons_self _ _),
      Bool.false_eq_true, if_false, List.append_eq]
    rw [ih (fun c hc => h c (List.mem_cons_of_mem _ hc))]

theorem splitOnC_not_mem (sep : Char) (cs : List Char)
    (h : ∀ c ∈ cs, (c == sep) = false) : splitOnC sep cs = [cs] := by
  induction cs with
  | nil => rfl
  | cons c rest ih =>
    simp only [splitOnC, h c (List.mem_cons_self _ _), Bool.false_eq_true, if_false]
    rw [ih (fun x hx => h x (List.mem_cons_of_mem _ hx))]

theorem splitOnC_append (sep : Char) (p rest : List Char)
    (hp : ∀ c ∈ p, (c == sep) = false) :
    splitOnC sep (p ++ sep :: rest) = p :: splitOnC sep rest := by
  induction p with
  | nil => simp [splitOnC]
  | cons x xs ih =>
    simp only [List.cons_append, splitOnC, hp x (List.mem_cons_self _ _),
      Bool.false_eq_true, if_false, List.append_eq]
    rw [ih (fun c hc => hp c (List.mem_cons_of_mem _ hc))]

theorem splitOnC_join (sep : Char) :
    ∀ (parts : List (List Char)), parts ≠ [] →
      (∀ p ∈ parts, ∀ c ∈ p, (c == sep) = false) →
      splitOnC sep (joinC sep parts) = parts := by
  intro parts
  induction parts with
  | nil => intro h; exact absurd rfl h
  | cons p ps ih =>
    intro _ hall
    cases ps with
    | nil =>
      show splitOnC sep (joinC sep [p]) = [p]
      rw [show joinC sep [p] = p from rfl]
      exact splitOnC_not_mem sep p (hall p (List.mem_cons_self _ _))
    | cons q qs =>
      rw [show joinC sep (p :: q :: qs) = p ++ sep :: joinC sep (q :: qs) from rfl]
      rw [splitOnC_append sep p _ (hall p (List.mem_cons_self _ _))]
      rw [ih (by simp) (fun x hx => hall x (List.mem_cons_of_mem _ hx))]

theorem joinC_chars (sep : Char) (q : Char → Bool) :
    ∀ (parts : List (List Char)), q sep = true →
      (∀ p ∈ parts, ∀ c ∈ p, q c = true) →
      ∀ c ∈ joinC sep parts, q c = true := by
  intro parts
  induction parts with
  | nil => intro _ _ c hc; simp [joinC] at hc
  | cons p ps ih =>
    intro hsep hall c hc
    cases ps with
    | nil => exact hall p (List.mem_cons_self _ _) c hc
    | cons r rs =>
      rw [show joinC sep (p :: r :: rs) = p ++ sep :: joinC sep (r :: rs) from rfl] at hc
      rcases List.mem_append.mp hc with hc' | hc'
      · exact hall p (List.mem_cons_self _ _) c hc'
      · rcases List.mem_cons.mp hc' with rfl | hc''
        · exact hsep
        · exact ih hsep (fun x hx => hall x (List.mem_cons_of_mem _ hx)) c hc''

theorem joinC_ne_nil (sep : Char) (p : List Char) (parts : List (List Char))
    (hp : p ≠ []) : joinC sep (p :: parts) ≠ [] := by
  cases parts with
  | nil => exact hp
  | cons q qs =>
    rw [show joinC sep (p :: q :: qs) = p ++ sep :: joinC sep (q :: qs) from rfl]
    cases p with
    | nil => exact absurd rfl hp
    | cons x xs => simp

/-! ## Parsing the canonical rendering -/

/-- The canonical rendering `name[extras]op1ver1,op2ver2` that both the
`parse_requirement` rebuild and `str(Requirement)` produce. -/
def canonRender (nm : List Char) (extras : List (List Char))
    (specs : List (List Char × List Char)) : List Char :=
  nm ++ (if extras.isEmpty then [] else '[' :: (joinC ',' extras ++ [']']))
    ++ joinC ',' (specs.map (fun p => p.1 ++ p.2))

theorem parseSpecOne_canon (op v : List Char) (hop : op ∈ validOps) (hv : v ≠ [])
    (hvc : ∀ c ∈ v, canonVer c = true) : parseSpecOne (op ++ v) = some (op, v) := by
  obtain ⟨hopne, hopall⟩ := validOps_facts op hop
  obtain ⟨c, cs, rfl⟩ : ∃ c cs, v = c :: cs := by
    cases v with
    | nil => exact absurd rfl hv
    | cons c cs => exact ⟨c, cs, rfl⟩
  have hcop : opChar c = false := (canonVer_props c (hvc c (List.mem_cons_self _ _))).2.2.2.2.2.1
  have htake : (op ++ c :: cs).takeWhile opChar = op := by
    rw [takeWhile_all_append opChar op _ hopall, takeWhile_head_false opChar c cs hcop,
      List.append_nil]
  have hdrop : (op ++ c :: cs).dropWhile opChar = c :: cs := by
    rw [dropWhile_all_append opChar op _ hopall, dropWhile_head_false opChar c cs hcop]
  unfold parseSpecOne
  rw [htake, hdrop,
    trimCs_no_space _ (fun x hx => (canonVer_props x (hvc x hx)).2.2.2.2.1)]
  have h1 : validOps.contains op = true := List.elem_iff.mpr hop
  have h3 : (c :: cs).all versionChar = true :=
    List.all_eq_true.mpr (fun x hx => (canonVer_props x (hvc x hx)).2.2.2.2.2.2)
  simp [h1, h3, hop]

theorem parseSpecList_canon :
    ∀ (specs : List (List Char × List Char)),
      (∀ p ∈ specs, p.1 ∈ validOps ∧ p.2 ≠ [] ∧ ∀ c ∈ p.2, canonVer c = true) →
      parseSpecList (specs.map (fun p => p.1 ++ p.2)) = some specs := by
  intro specs
  induction specs with
  | nil => intro _; rfl
  | cons p ps ih =>
    intro hall
    obtain ⟨hop, hne, hch⟩ := hall p (List.mem_cons_self _ _)
    simp only [List.map_cons, parseSpecList, parseSpecOne_canon p.1 p.2 hop hne hch,
      ih (fun q hq => hall q (List.mem_cons_of_mem _ hq))]

theorem parseSpecList_fail :
    ∀ (parts : List (List Char)) (p : List Char), p ∈ parts → parseSpecOne p = none →
      parseSpecList parts = none := by
  intro parts
  induction parts with
  | nil => intro p hp; simp at hp
  | cons q qs ih =>
    intro p hp hfail
    rcases List.mem_cons.mp hp with rfl | hp'
    · simp only [parseSpecList, hfail]
    · simp only [parseSpecList, ih p hp' hfail]
      cases parseSpecOne q <;> rfl

theorem specPart_no_comma (p : List Char × List Char) (hop : p.1 ∈ validOps)
    (hch : ∀ c ∈ p.2, canonVer c = true) : ∀ c ∈ p.1 ++ p.2, (c == ',') = false := by
  intro c hc
  rcases List.mem_append.mp hc with hc' | hc'
  · have := (validOps_facts p.1 hop).2
    exact (opChar_props c (List.all_eq_true.mp this c hc')).2.2.1
  · exact (canonVer_props c (hch c hc')).2.1

theorem specPart_no_space (p : List Char × List Char) (hop : p.1 ∈ validOps)
    (hch : ∀ c ∈ p.2, canonVer c = true) : ∀ c ∈ p.1 ++ p.2, spaceChar c = false := by
  intro c hc
  rcases List.mem_append.mp hc with hc' | hc'
  · have := (validOps_facts p.1 hop).2
    exact (opChar_props c (List.all_eq_true.mp this c hc')).2.2.2.2
  · exact (canonVer_props c (hch c hc')).2.2.2.2.1

theorem bool_not_true_of_false {b : Bool} (h : b = false) : (!b) = true := by
  rw [h]; rfl

theorem bool_false_of_not_true {b : Bool} (h : (!b) = true) : b = false := by
  revert h; cases b <;> simp

theorem specsJoin_no_space (specs : List (List Char × List Char))
    (hsp : ∀ p ∈ specs, p.1 ∈ validOps ∧ ∀ c ∈ p.2, canonVer c = true) :
    ∀ c ∈ joinC ',' (specs.map (fun p => p.1 ++ p.2)), spaceChar c = false := by
  have hj := joinC_chars ',' (fun c => !spaceChar c) (specs.map (fun p => p.1 ++ p.2))
    (by decide)
    (by
      intro q hq c hc
      obtain ⟨p, hp, rfl⟩ := List.mem_map.mp hq
      show (!spaceChar c) = true
      exact bool_not_true_of_false (specPart_no_space p (hsp p hp).1 (hsp p hp).2 c hc))
  intro c hc
  have h2 : (!spaceChar c) = true := hj c hc
  exact bool_false_of_not_true h2

theorem parseSpecsFrom_canonJ (specs : List (List Char × List Char))
    (hsp : ∀ p ∈ specs, p.1 ∈ validOps ∧ ∀ c ∈ p.2, canonVer c = true) :
    parseSpecsFrom (joinC ',' (specs.map (fun p => p.1 ++ p.2))) =
      (if specs.isEmpty then some []
       else parseSpecList (specs.map (fun p => p.1 ++ p.2))) := by
  cases specs with
  | nil => rfl
  | cons p ps =>
    have hop := (hsp p (List.mem_cons_self _ _)).1
    have hpne : p.1 ++ p.2 ≠ [] := by
      have := (validOps_facts p.1 hop).1
      cases hp1 : p.1 with
      | nil => exact absurd hp1 this
      | cons x xs => simp
    have hJne : joinC ',' ((p :: ps).map (fun p => p.1 ++ p.2)) ≠ [] := by
      rw [List.map_cons]
      exact joinC_ne_nil ',' _ _ hpne
    unfold parseSpecsFrom
    rw [trimCs_no_space _ (specsJoin_no_space (p :: ps) hsp)]
    have hie : (joinC ',' ((p :: ps).map (fun q => q.1 ++ q.2))).isEmpty = false := by
      cases hJ : joinC ',' ((p :: ps).map (fun q => q.1 ++ q.2)) with
      | nil => exact absurd hJ hJne
      | cons a l => rfl
    rw [hie]
    have hsplit : splitOnC ',' (joinC ',' ((p :: ps).map (fun q => q.1 ++ q.2))) =
        (p :: ps).map (fun q => q.1 ++ q.2) := by
      apply splitOnC_join
      · simp
      · intro q hq c hc
        obtain ⟨r, hr, rfl⟩ := List.mem_map.mp hq
        exact specPart_no_comma r (hsp r hr).1 (hsp r hr).2 c hc
    rw [hsplit]
    have htrim : ((p :: ps).map (fun q => q.1 ++ q.2)).map trimCs =
        (p :: ps).map (fun q => q.1 ++ q.2) := by
      have h1 : ((p :: ps).map (fun q => q.1 ++ q.2)).map trimCs =
          ((p :: ps).map (fun q => q.1 ++ q.2)).map id :=
        List.map_congr_left (by
          intro q hq
          obtain ⟨r, hr, rfl⟩ := List.mem_map.mp hq
          exact trimCs_no_space _ (specPart_no_space r (hsp r hr).1 (hsp r hr).2))
      rw [h1, List.map_id]
    rw [htrim]
    simp only [Bool.false_eq_true, if_false, List.isEmpty_cons]

theorem parseExtrasPart_no_bracket (cs : List Char)
    (h : ∀ rest : List Char, cs ≠ '[' :: rest) : parseExtrasPart cs = some ([], cs) := by
  cases cs with
  | nil => rfl
  | cons c rest =>
    have hc : c ≠ '[' := by
      intro hcon
      exact h rest (by rw [hcon])
    simp only [parseExtrasPart]
    rw [if_neg hc]

theorem parseExtrasPart_bracket (extras : List (List Char)) (after : List Char)
    (hall : ∀ e ∈ extras, e ≠ [] ∧ ∀ c ∈ e, nameChar c = true)
    (hne : extras ≠ []) :
    parseExtrasPart ('[' :: (joinC ',' extras ++ ']' :: after)) = some (extras, after) := by
  have hnobr : ∀ c ∈ joinC ',' extras, (c == ']') = false := by
    intro c hc
    have hj := joinC_chars ',' (fun c => !(c == ']')) extras (by decide)
      (by
        intro e he x hx
        show (!(x == ']')) = true
        exact bool_not_true_of_false (nameChar_props x ((hall e he).2 x hx)).2.2.2.1) c hc
    exact bool_false_of_not_true hj
  have hsf : splitFirst ']' (joinC ',' extras ++ ']' :: after) =
      (joinC ',' extras, some after) := splitFirst_append ']' _ after hnobr
  have hsplit : splitOnC ',' (joinC ',' extras) = extras := by
    apply splitOnC_join ',' extras hne
    intro e he c hc
    exact (nameChar_props c ((hall e he).2 c hc)).2.1
  have htrim : extras.map trimCs = extras := by
    rw [show extras.map trimCs = extras.map id from List.map_congr_left
      (fun e he => trimCs_no_space e
        (fun c hc => (nameChar_props c ((hall e he).2 c hc)).2.2.2.2))]
    exact List.map_id extras
  have hvalid : (extras.map trimCs).all (fun e => !e.isEmpty && e.all nameChar) = true := by
    rw [htrim]
    apply List.all_eq_true.mpr
    intro e he
    obtain ⟨hene, hech⟩ := hall e he
    have h1 : e.isEmpty = false := by
      cases e with
      | nil => exact absurd rfl hene
      | cons a l => rfl
    have h2 : e.all nameChar = true := List.all_eq_true.mpr hech
    rw [h1, h2]
    rfl
  simp only [parseExtrasPart]
  rw [if_pos trivial, hsf]
  show (if ((List.map trimCs (splitOnC ',' (joinC ',' extras))).all
        fun e => !e.isEmpty && e.all nameChar) = true
      then some (List.map trimCs (splitOnC ',' (joinC ',' extras)), after) else none) =
    some (extras, after)
  rw [hsplit, htrim]
  rw [if_pos (htrim ▸ hvalid)]

/-! ## Parsing the full canonical rendering -/

theorem validOps_head (op : List Char) (hop : op ∈ validOps) :
    ∃ c cs, op = c :: cs ∧ opChar c = true ∧ nameChar c = false ∧ (c == '[') = false := by
  simp only [validOps, List.mem_cons, List.mem_singleton] at hop
  rcases hop with rfl | rfl | rfl | rfl | rfl | rfl | rfl | (rfl | h)
  · exact ⟨'=', ['='], rfl, by decide, by decide, by decide⟩
  · exact ⟨'!', ['='], rfl, by decide, by decide, by decide⟩
  · exact ⟨'<', ['='], rfl, by decide, by decide, by decide⟩
  · exact ⟨'>', ['='], rfl, by decide, by decide, by decide⟩
  · exact ⟨'<', [], rfl, by decide, by decide, by decide⟩
  · exact ⟨'>', [], rfl, by decide, by decide, by decide⟩
  · exact ⟨'~', ['='], rfl, by decide, by decide, by decide⟩
  · exact ⟨'=', ['=', '='], rfl, by decide, by decide, by decide⟩
  · simp at h

theorem extrasJoin_chars (extras : List (List Char))
    (hex : ∀ e ∈ extras, ∀ c ∈ e, nameChar c = true) :
    ∀ c ∈ joinC ',' extras, nameChar c = true ∨ c = ',' := by
  intro c hc
  have hj := joinC_chars ',' (fun c => nameChar c || (c == ',')) extras (by decide)
    (by
      intro e he x hx
      show (nameChar x || (x == ',')) = true
      rw [hex e he x hx]
      rfl) c hc
  rcases Bool.or_eq_true _ _ ▸ hj with h | h
  · exact Or.inl h
  · exact Or.inr (eq_of_beq h)

theorem specsJoin_chars (specs : List (List Char × List Char))
    (hsp : ∀ p ∈ specs, p.1 ∈ validOps ∧ ∀ c ∈ p.2, canonVer c = true) :
    ∀ c ∈ joinC ',' (specs.map (fun p => p.1 ++ p.2)),
      opChar c = true ∨ canonVer c = true ∨ c = ',' := by
  intro c hc
  have hj := joinC_chars ',' (fun c => opChar c || canonVer c || (c == ','))
    (specs.map (fun p => p.1 ++ p.2)) (by decide)
    (by
      intro q hq x hx
      obtain ⟨p, hp, rfl⟩ := List.mem_map.mp hq
      rcases List.mem_append.mp hx with hx' | hx'
      · have := List.all_eq_true.mp (validOps_facts p.1 (hsp p hp).1).2 x hx'
        show (opChar x || canonVer x || (x == ',')) = true
        rw [this]
        rfl
      · have := (hsp p hp).2 x hx'
        show (opChar x || canonVer x || (x == ',')) = true
        rw [this]
        simp) c hc
  rcases Bool.or_eq_true _ _ ▸ hj with h | h
  · rcases Bool.or_eq_true _ _ ▸ h with h' | h'
    · exact Or.inl h'
    · exact Or.inr (Or.inl h')
  · exact Or.inr (Or.inr (eq_of_beq h))

theorem specsJoin_no_bracket (specs : List (List Char × List Char))
    (hsp : ∀ p ∈ specs, p.1 ∈ validOps ∧ ∀ c ∈ p.2, canonVer c = true) :
    ∀ c ∈ joinC ',' (specs.map (fun p => p.1 ++ p.2)), (c == '[') = false := by
  intro c hc
  rcases specsJoin_chars specs hsp c hc with h | h | rfl
  · exact (opChar_props c h).2.2.2.1
  · exact (canonVer_props c h).2.2.1
  · decide

theorem specsJoin_no_semi (specs : List (List Char × List Char))
    (hsp : ∀ p ∈ specs, p.1 ∈ validOps ∧ ∀ c ∈ p.2, canonVer c = true) :
    ∀ c ∈ joinC ',' (specs.map (fun p => p.1 ++ p.2)), (c == ';') = false := by
  intro c hc
  rcases specsJoin_chars specs hsp c hc with h | h | rfl
  · exact (opChar_props c h).2.1
  · exact (canonVer_props c h).1
  · decide

theorem bracketPart_no_space (extras : List (List Char))
    (hex : ∀ e ∈ extras, ∀ c ∈ e, nameChar c = true) :
    ∀ c ∈ (if extras.isEmpty then ([] : List Char)
        else '[' :: (joinC ',' extras ++ [']'])), spaceChar c = false := by
  intro c hc
  by_cases he : extras.isEmpty
  · rw [if_pos he] at hc
    simp at hc
  · rw [if_neg he] at hc
    rcases List.mem_cons.mp hc with rfl | hc'
    · decide
    · rcases List.mem_append.mp hc' with hcj | hcr
      · rcases extrasJoin_chars extras hex c hcj with h | rfl
        · exact (nameChar_props c h).2.2.2.2
        · decide
      · rw [List.mem_singleton.mp hcr]
        decide

theorem bracketPart_no_semi (extras : List (List Char))
    (hex : ∀ e ∈ extras, ∀ c ∈ e, nameChar c = true) :
    ∀ c ∈ (if extras.isEmpty then ([] : List Char)
        else '[' :: (joinC ',' extras ++ [']'])), (c == ';') = false := by
  intro c hc
  by_cases he : extras.isEmpty
  · rw [if_pos he] at hc
    simp at hc
  · rw [if_neg he] at hc
    rcases List.mem_cons.mp hc with rfl | hc'
    · decide
    · rcases List.mem_append.mp hc' with hcj | hcr
      · rcases extrasJoin_chars extras hex c hcj with h | rfl
        · exact (nameChar_props c h).1
        · decide
      · rw [List.mem_singleton.mp hcr]
        decide

theorem canonRender_no_space (nm : List Char) (extras : List (List Char))
    (specs : List (List Char × List Char))
    (hnm : ∀ c ∈ nm, nameChar c = true)
    (hex : ∀ e ∈ extras, ∀ c ∈ e, nameChar c = true)
    (hsp : ∀ p ∈ specs, p.1 ∈ validOps ∧ ∀ c ∈ p.2, canonVer c = true) :
    ∀ c ∈ canonRender nm extras specs, spaceChar c = false := by
  intro c hc
  unfold canonRender at hc
  rcases List.mem_append.mp hc with hc1 | hcJ
  · rcases List.mem_append.mp hc1 with hcn | hcB
    · exact (nameChar_props c (hnm c hcn)).2.2.2.2
    · exact bracketPart_no_space extras hex c hcB
  · exact specsJoin_no_space specs hsp c hcJ

theorem canonRender_no_semi (nm : List Char) (extras : List (List Char))
    (specs : List (List Char × List Char))
    (hnm : ∀ c ∈ nm, nameChar c = true)
    (hex : ∀ e ∈ extras, ∀ c ∈ e, nameChar c = true)
    (hsp : ∀ p ∈ specs, p.1 ∈ validOps ∧ ∀ c ∈ p.2, canonVer c = true) :
    ∀ c ∈ canonRender nm extras specs, (c == ';') = false := by
  intro c hc
  unfold canonRender at hc
  rcases List.mem_append.mp hc with hc1 | hcJ
  · rcases List.mem_append.mp hc1 with hcn | hcB
    · exact (nameChar_props c (hnm c hcn)).1
    · exact bracketPart_no_semi extras hex c hcB
  · exact specsJoin_no_semi specs hsp c hcJ

theorem tail_not_nameChar (extras : List (List Char)) (specs : List (List Char × List Char))
    (hsp : ∀ p ∈ specs, p.1 ∈ validOps ∧ ∀ c ∈ p.2, canonVer c = true) :
    ((if extras.isEmpty then ([] : List Char) else '[' :: (joinC ',' extras ++ [']']))
      ++ joinC ',' (specs.map (fun p => p.1 ++ p.2))).takeWhile nameChar = [] ∧
    ((if extras.isEmpty then ([] : List Char) else '[' :: (joinC ',' extras ++ [']']))
      ++ joinC ',' (specs.map (fun p => p.1 ++ p.2))).dropWhile nameChar =
      (if extras.isEmpty then ([] : List Char) else '[' :: (joinC ',' extras ++ [']']))
        ++ joinC ',' (specs.map (fun p => p.1 ++ p.2)) := by
  by_cases he : extras.isEmpty
  · rw [if_pos he]
    cases specs with
    | nil => exact ⟨rfl, rfl⟩
    | cons p ps =>
      obtain ⟨tl, hJeq⟩ : ∃ tl,
          joinC ',' ((p :: ps).map (fun q => q.1 ++ q.2)) = (p.1 ++ p.2) ++ tl := by
        cases ps with
        | nil => exact ⟨[], (List.append_nil _).symm⟩
        | cons q qs =>
          exact ⟨',' :: joinC ','
            ((q :: qs).map (fun r : List Char × List Char => r.1 ++ r.2)), rfl⟩
      obtain ⟨c, cs, hc, _, hnc, _⟩ := validOps_head p.1 (hsp p (List.mem_cons_self _ _)).1
      rw [hJeq, hc, List.cons_append, List.cons_append]
      exact ⟨takeWhile_head_false nameChar c _ hnc, dropWhile_head_false nameChar c _ hnc⟩
  · rw [if_neg he, List.cons_append]
    have hnb : nameChar '[' = false := by decide
    exact ⟨takeWhile_head_false nameChar '[' _ hnb, dropWhile_head_false nameChar '[' _ hnb⟩

theorem parseBody_canon (nm : List Char) (extras : List (List Char))
    (specs : List (List Char × List Char))
    (hnm : nm ≠ [] ∧ ∀ c ∈ nm, nameChar c = true)
    (hex : ∀ e ∈ extras, e ≠ [] ∧ ∀ c ∈ e, nameChar c = true)
    (hsp : ∀ p ∈ specs, p.1 ∈ validOps ∧ ∀ c ∈ p.2, canonVer c = true) :
    parseBody (canonRender nm extras specs) =
      (match parseSpecsFrom (joinC ',' (specs.map (fun p => p.1 ++ p.2))) with
       | none => none
       | some sp => some (nm, extras, sp)) := by
  have hex' : ∀ e ∈ extras, ∀ c ∈ e, nameChar c = true := fun e he => (hex e he).2
  have htrim : trimCs (canonRender nm extras specs) = canonRender nm extras specs :=
    trimCs_no_space _ (canonRender_no_space nm extras specs hnm.2 hex' hsp)
  have htail := tail_not_nameChar extras specs hsp
  have htake : (canonRender nm extras specs).takeWhile nameChar = nm := by
    unfold canonRender
    rw [List.append_assoc, takeWhile_all_append nameChar nm _ (List.all_eq_true.mpr hnm.2),
      htail.1, List.append_nil]
  have hdrop : (canonRender nm extras specs).dropWhile nameChar =
      (if extras.isEmpty then ([] : List Char) else '[' :: (joinC ',' extras ++ [']']))
        ++ joinC ',' (specs.map (fun p => p.1 ++ p.2)) := by
    unfold canonRender
    rw [List.append_assoc, dropWhile_all_append nameChar nm _ (List.all_eq_true.mpr hnm.2),
      htail.2]
  have htrimL : trimL ((if extras.isEmpty then ([] : List Char)
      else '[' :: (joinC ',' extras ++ [']']))
        ++ joinC ',' (specs.map (fun p => p.1 ++ p.2))) =
      (if extras.isEmpty then ([] : List Char) else '[' :: (joinC ',' extras ++ [']']))
        ++ joinC ',' (specs.map (fun p => p.1 ++ p.2)) := by
    apply trimL_no_space
    intro c hc
    rcases List.mem_append.mp hc with hc' | hc'
    · exact bracketPart_no_space extras hex' c hc'
    · exact specsJoin_no_space specs hsp c hc'
  have hep : parseExtrasPart ((if extras.isEmpty then ([] : List Char)
      else '[' :: (joinC ',' extras ++ [']']))
        ++ joinC ',' (specs.map (fun p => p.1 ++ p.2))) =
      some (extras, joinC ',' (specs.map (fun p => p.1 ++ p.2))) := by
    by_cases he : extras.isEmpty
    · have hee : extras = [] := by
        cases hx : extras with
        | nil => rfl
        | cons a l => rw [hx] at he; simp at he
      rw [if_pos he, List.nil_append, hee]
      apply parseExtrasPart_no_bracket
      intro rest hcon
      have : '[' ∈ joinC ',' (specs.map (fun p => p.1 ++ p.2)) := by
        rw [hcon]
        exact List.mem_cons_self _ _
      have := specsJoin_no_bracket specs hsp '[' this
      simp at this
    · rw [if_neg he, List.cons_append, List.append_assoc,
        show ([']'] ++ joinC ',' (specs.map (fun p => p.1 ++ p.2))) =
          ']' :: joinC ',' (specs.map (fun p => p.1 ++ p.2)) from rfl]
      apply parseExtrasPart_bracket extras _ hex
      intro hcon
      rw [hcon] at he
      simp at he
  have hnmie : (nm.takeWhile nameChar).isEmpty = false := by
    cases hn : nm with
    | nil => exact absurd hn hnm.1
    | cons c cs =>
      have hna : nameChar c = true := hnm.2 c (by rw [hn]; exact List.mem_cons_self _ _)
      simp [List.takeWhile_cons, hna]
  unfold parseBody
  rw [htrim, htake, hdrop, htrimL, hep]
  have hie : nm.isEmpty = false := by
    cases hn : nm with
    | nil => exact absurd hn hnm.1
    | cons c cs => rfl
  rw [hie]
  simp only [Bool.false_eq_true, if_false]

theorem reqParseCs_canon (nm : List Char) (extras : List (List Char))
    (specs : List (List Char × List Char))
    (hnm : nm ≠ [] ∧ ∀ c ∈ nm, nameChar c = true)
    (hex : ∀ e ∈ extras, e ≠ [] ∧ ∀ c ∈ e, nameChar c = true)
    (hsp : ∀ p ∈ specs, p.1 ∈ validOps ∧ ∀ c ∈ p.2, canonVer c = true) :
    reqParseCs (canonRender nm extras specs) =
      (match parseSpecsFrom (joinC ',' (specs.map (fun p => p.1 ++ p.2))) with
       | none => none
       | some sp =>
         some ⟨String.mk nm, extras.map (fun e => String.mk (safeExtraCs e)),
               sp.map (fun p => (String.mk p.1, String.mk p.2)), none⟩) := by
  have hsf : splitFirst ';' (canonRender nm extras specs) =
      (canonRender nm extras specs, none) :=
    splitFirst_not_mem ';' _
      (canonRender_no_semi nm extras specs hnm.2 (fun e he => (hex e he).2) hsp)
  unfold reqParseCs
  rw [hsf]
  simp only [Option.map_none', reduceCtorEq, if_false]
  rw [parseBody_canon nm extras specs hnm hex hsp]
  cases parseSpecsFrom (joinC ',' (specs.map (fun p => p.1 ++ p.2))) <;> rfl

/-! ## Inversion: what a successful parse guarantees -/

theorem parseSpecOne_inv (part : List Char) (op v : List Char)
    (h : parseSpecOne part = some (op, v)) :
    op ∈ validOps ∧ v ≠ [] ∧ v.all versionChar = true := by
  unfold parseSpecOne at h
  by_cases hc : (validOps.contains (part.takeWhile opChar)
      && !(trimCs (part.dropWhile opChar)).isEmpty
      && (trimCs (part.dropWhile opChar)).all versionChar) = true
  · rw [if_pos hc] at h
    obtain ⟨h1, h2⟩ := Prod.mk.injEq _ _ _ _ ▸ Option.some.inj h
    rw [Bool.and_eq_true, Bool.and_eq_true] at hc
    subst h1
    subst h2
    refine ⟨List.elem_iff.mp hc.1.1, ?_, hc.2⟩
    intro hnil
    rw [hnil] at hc
    exact absurd hc.1.2 (by decide)
  · rw [if_neg hc] at h
    exact absurd h (by simp)

theorem parseSpecList_inv :
    ∀ (parts : List (List Char)) (sp : List (List Char × List Char)),
      parseSpecList parts = some sp →
      ∀ p ∈ sp, p.1 ∈ validOps ∧ p.2 ≠ [] ∧ p.2.all versionChar = true := by
  intro parts
  induction parts with
  | nil =>
    intro sp h p hp
    cases Option.some.inj h
    simp at hp
  | cons q qs ih =>
    intro sp h p hp
    unfold parseSpecList at h
    cases hone : parseSpecOne q with
    | none => rw [hone] at h; exact absurd h (by simp)
    | some s =>
      rw [hone] at h
      cases hrest : parseSpecList qs with
      | none => rw [hrest] at h; exact absurd h (by simp)
      | some rest =>
        rw [hrest] at h
        cases Option.some.inj h
        rcases List.mem_cons.mp hp with rfl | hp'
        · exact parseSpecOne_inv q p.1 p.2 (by rw [Prod.mk.eta]; exact hone)
        · exact ih rest hrest p hp'

theorem parseSpecsFrom_inv (cs : List Char) (sp : List (List Char × List Char))
    (h : parseSpecsFrom cs = some sp) :
    ∀ p ∈ sp, p.1 ∈ validOps ∧ p.2 ≠ [] ∧ p.2.all versionChar = true := by
  unfold parseSpecsFrom at h
  by_cases hie : (trimCs cs).isEmpty = true
  · rw [if_pos hie] at h
    cases Option.some.inj h
    intro p hp
    simp at hp
  · rw [if_neg hie] at h
    exact parseSpecList_inv _ sp h

theorem parseExtrasPart_inv (cs : List Char) (es : List (List Char)) (r2 : List Char)
    (h : parseExtrasPart cs = some (es, r2)) :
    ∀ e ∈ es, e ≠ [] ∧ ∀ c ∈ e, nameChar c = true := by
  cases cs with
  | nil =>
    injection h with hpr
    injection hpr with h1 _
    subst h1
    intro e he
    simp at he
  | cons c rest =>
    simp only [parseExtrasPart] at h
    by_cases hc : c = '['
    · rw [if_pos hc] at h
      cases hm : splitFirst ']' rest with
      | mk inside after =>
        cases after with
        | none =>
          rw [hm] at h
          exact absurd h (by simp)
        | some aft =>
          rw [hm] at h
          have h' : (if (((splitOnC ',' inside).map trimCs).all
              (fun e => !e.isEmpty && e.all nameChar)) = true
              then some ((splitOnC ',' inside).map trimCs, aft) else none) =
              some (es, r2) := h
          by_cases hv : (((splitOnC ',' inside).map trimCs).all
              (fun e => !e.isEmpty && e.all nameChar)) = true
          · rw [if_pos hv] at h'
            injection h' with hpr
            injection hpr with h1 _
            subst h1
            intro e he
            have hall := List.all_eq_true.mp hv e he
            rw [Bool.and_eq_true] at hall
            constructor
            · intro hnil
              rw [hnil] at hall
              exact absurd hall.1 (by decide)
            · exact fun c' hc' => List.all_eq_true.mp hall.2 c' hc'
          · rw [if_neg hv] at h'
            exact absurd h' (by simp)
    · rw [if_neg hc] at h
      injection h with hpr
      injection hpr with h1 _
      subst h1
      intro e he
      simp at he

theorem parseBody_inv (body : List Char) (nm : List Char) (es : List (List Char))
    (sp : List (List Char × List Char)) (h : parseBody body = some (nm, es, sp)) :
    (nm ≠ [] ∧ ∀ c ∈ nm, nameChar c = true) ∧
    (∀ e ∈ es, e ≠ [] ∧ ∀ c ∈ e, nameChar c = true) ∧
    (∀ p ∈ sp, p.1 ∈ validOps ∧ p.2 ≠ [] ∧ p.2.all versionChar = true) := by
  unfold parseBody at h
  by_cases hie : ((trimCs body).takeWhile nameChar).isEmpty = true
  · rw [if_pos hie] at h
    exact absurd h (by simp)
  · rw [if_neg hie] at h
    cases hep : parseExtrasPart (trimL ((trimCs body).dropWhile nameChar)) with
    | none =>
      rw [hep] at h
      exact absurd h (by simp)
    | some pr =>
      obtain ⟨es', r2⟩ := pr
      rw [hep] at h
      have h' : (match parseSpecsFrom r2 with
          | none => none
          | some sp => some ((trimCs body).takeWhile nameChar, es', sp)) =
          some (nm, es, sp) := h
      cases hsp2 : parseSpecsFrom r2 with
      | none =>
        rw [hsp2] at h'
        exact absurd h' (by simp)
      | some sp' =>
        rw [hsp2] at h'
        injection h' with htup
        injection htup with h1 hrest
        injection hrest with h2 h3
        subst h1
        subst h2
        subst h3
        refine ⟨⟨?_, ?_⟩, parseExtrasPart_inv _ _ _ hep, parseSpecsFrom_inv _ _ hsp2⟩
        · intro hnil
          exact hie (by rw [hnil]; rfl)
        · intro c hc
          exact List.mem_takeWhile_imp hc

theorem reqParseCs_inv (cs : List Char) (d : Req) (h : reqParseCs cs = some d) :
    (d.name.data ≠ [] ∧ ∀ c ∈ d.name.data, nameChar c = true) ∧
    (∀ e ∈ d.extras, e.data ≠ [] ∧ (∀ c ∈ e.data, nameChar c = true) ∧
      safeExtraCs e.data = e.data) ∧
    (∀ p ∈ d.specs, p.1.data ∈ validOps ∧ p.2.data ≠ [] ∧
      p.2.data.all versionChar = true) := by
  unfold reqParseCs at h
  by_cases hm : (splitFirst ';' cs).2.map trimCs = some []
  · rw [if_pos hm] at h
    exact absurd h (by simp)
  · rw [if_neg hm] at h
    cases hb : parseBody (splitFirst ';' cs).1 with
    | none =>
      rw [hb] at h
      exact absurd h (by simp)
    | some triple =>
      obtain ⟨nm, es, sp⟩ := triple
      rw [hb] at h
      have h' : some (⟨String.mk nm, es.map (fun e => String.mk (safeExtraCs e)),
          sp.map (fun p => (String.mk p.1, String.mk p.2)),
          ((splitFirst ';' cs).2.map trimCs).map String.mk⟩ : Req) = some d := h
      injection h' with hd
      subst hd
      obtain ⟨hnm, hes, hsp⟩ := parseBody_inv _ _ _ _ hb
      refine ⟨⟨hnm.1, hnm.2⟩, ?_, ?_⟩
      · intro e he
        obtain ⟨e0, he0, rfl⟩ := List.mem_map.mp he
        exact ⟨safeExtraCs_ne_nil e0 (hes e0 he0).1,
          fun c hc => safeExtraCs_chars e0 c hc, safeExtraCs_idem e0⟩
      · intro p hp
        obtain ⟨p0, hp0, rfl⟩ := List.mem_map.mp hp
        have hq := hsp p0 hp0
        exact ⟨hq.1, hq.2.1, hq.2.2⟩

/-- The invariant enjoyed by every `parse_requirement` output: all fields are
fixed points of the normalisation functions. -/
def CanonReq (r : Req) : Prop :=
  (r.name.data ≠ [] ∧ (∀ c ∈ r.name.data, nameChar c = true) ∧
    safeNameCs r.name.data = r.name.data) ∧
  (∀ e ∈ r.extras, e.data ≠ [] ∧ (∀ c ∈ e.data, nameChar c = true) ∧
    safeExtraCs e.data = e.data) ∧
  (∀ p ∈ r.specs, p.1.data ∈ validOps ∧ p.2.data ≠ [] ∧
    (∀ c ∈ p.2.data, canonVer c = true) ∧ safeVersionCs p.2.data = p.2.data) ∧
  r.marker = none

theorem rebuild_eq_canon (d : Req) :
    (rebuild d).data = canonRender (safeNameCs d.name.data) (d.extras.map String.data)
      (d.specs.map (fun p => (p.1.data, safeVersionCs p.2.data))) := by
  show rebuildCs d.name.data (d.extras.map String.data)
      (d.specs.map (fun p => (p.1.data, p.2.data))) = _
  unfold rebuildCs canonRender
  rw [List.map_map, List.map_map]
  rfl

theorem parseSpecOne_op_only (op : List Char) (hop : op ∈ validOps) :
    parseSpecOne op = none := by
  have hall := (validOps_facts op hop).2
  have htake : op.takeWhile opChar = op := by
    have h0 := takeWhile_all_append opChar op [] hall
    rw [List.append_nil] at h0
    rw [h0, show List.takeWhile opChar ([] : List Char) = [] from rfl, List.append_nil]
  have hdrop : op.dropWhile opChar = [] := by
    have h0 := dropWhile_all_append opChar op [] hall
    rw [List.append_nil] at h0
    rw [h0]
    rfl
  unfold parseSpecOne
  rw [htake, hdrop, show trimCs ([] : List Char) = [] from rfl]
  simp only [List.isEmpty_nil, Bool.not_true, Bool.and_false, Bool.false_and,
    Bool.false_eq_true, if_false]

theorem parse_requirement_canon (s : String) (r : Req)
    (h : parse_requirement s = some r) : CanonReq r := by
  unfold parse_requirement at h
  cases hd : reqParse s with
  | none =>
    rw [hd] at h
    exact absurd h (by simp)
  | some d =>
    rw [hd] at h
    have hinv := reqParseCs_inv s.data d hd
    have h2 : reqParseCs (rebuild d).data = some r := h
    rw [rebuild_eq_canon d] at h2
    have hypN : safeNameCs d.name.data ≠ [] ∧
        ∀ c ∈ safeNameCs d.name.data, nameChar c = true :=
      ⟨safeNameCs_ne_nil _ hinv.1.1, fun c hc => safeNameCs_chars _ c hc⟩
    have hypE : ∀ e ∈ d.extras.map String.data, e ≠ [] ∧ ∀ c ∈ e, nameChar c = true := by
      intro e he
      obtain ⟨e0, he0, rfl⟩ := List.mem_map.mp he
      exact ⟨(hinv.2.1 e0 he0).1, (hinv.2.1 e0 he0).2.1⟩
    have hypS : ∀ q ∈ d.specs.map (fun p => (p.1.data, safeVersionCs p.2.data)),
        q.1 ∈ validOps ∧ ∀ c ∈ q.2, canonVer c = true := by
      intro q hq
      obtain ⟨p0, hp0, rfl⟩ := List.mem_map.mp hq
      exact ⟨(hinv.2.2 p0 hp0).1,
        fun c hc => List.all_eq_true.mp (safeVersionCs_chars p0.2.data) c hc⟩
    rw [reqParseCs_canon _ _ _ ⟨hypN.1, hypN.2⟩ hypE hypS] at h2
    cases hJ : parseSpecsFrom (joinC ','
        ((d.specs.map (fun p => (p.1.data, safeVersionCs p.2.data))).map
          (fun p => p.1 ++ p.2))) with
    | none =>
      rw [hJ] at h2
      exact absurd h2 (by simp)
    | some sp2 =>
      rw [hJ] at h2
      injection h2 with hr
      by_cases hv : ∀ p ∈ d.specs, safeVersionCs p.2.data ≠ []
      · subst hr
        refine ⟨⟨safeNameCs_ne_nil _ hinv.1.1, fun c hc => safeNameCs_chars _ c hc,
          safeNameCs_idem _⟩, ?_, ?_, rfl⟩
        · intro e he
          obtain ⟨e1, he1, rfl⟩ := List.mem_map.mp he
          obtain ⟨e0, he0, rfl⟩ := List.mem_map.mp he1
          exact ⟨safeExtraCs_ne_nil _ (hinv.2.1 e0 he0).1,
            fun c hc => safeExtraCs_chars _ c hc, safeExtraCs_idem _⟩
        · intro p hp
          obtain ⟨p1, hp1, rfl⟩ := List.mem_map.mp hp
          -- determine sp2 = the canonical spec list
          have hSPne : ((d.specs.map
              (fun p => (p.1.data, safeVersionCs p.2.data))) : List _) ≠ [] ∨
              sp2 = [] := by
            by_cases hs2 : sp2 = []
            · exact Or.inr hs2
            · left
              intro hcon
              rw [parseSpecsFrom_canonJ _ hypS] at hJ
              rw [hcon] at hJ
              injection hJ with hJ'
              exact hs2 hJ'.symm
          have hJ2 : parseSpecsFrom (joinC ','
              ((d.specs.map (fun p => (p.1.data, safeVersionCs p.2.data))).map
                (fun p => p.1 ++ p.2))) =
              some (d.specs.map (fun p => (p.1.data, safeVersionCs p.2.data))) := by
            rw [parseSpecsFrom_canonJ _ hypS]
            by_cases hse : ((d.specs.map
                (fun p => (p.1.data, safeVersionCs p.2.data))).isEmpty) = true
            · rw [if_pos hse, List.isEmpty_iff.mp hse]
            · rw [if_neg hse]
              apply parseSpecList_canon
              intro q hq
              obtain ⟨p0, hp0, rfl⟩ := List.mem_map.mp hq
              exact ⟨(hinv.2.2 p0 hp0).1, hv p0 hp0,
                fun c hc => List.all_eq_true.mp (safeVersionCs_chars p0.2.data) c hc⟩
          rw [hJ2] at hJ
          injection hJ with hJ'
          rw [← hJ'] at hp1
          obtain ⟨p0, hp0, rfl⟩ := List.mem_map.mp hp1
          exact ⟨(hinv.2.2 p0 hp0).1, hv p0 hp0,
            fun c hc => List.all_eq_true.mp (safeVersionCs_chars p0.2.data) c hc,
            safeVersionCs_idem _⟩
      · exfalso
        push_neg at hv
        obtain ⟨p, hp, hnil⟩ := hv
        have hfail : parseSpecOne (p.1.data ++ safeVersionCs p.2.data) = none := by
          rw [hnil, List.append_nil]
          exact parseSpecOne_op_only p.1.data (hinv.2.2 p hp).1
        have hmem : (p.1.data ++ safeVersionCs p.2.data) ∈
            (d.specs.map (fun q => (q.1.data, safeVersionCs q.2.data))).map
              (fun q => q.1 ++ q.2) := by
          rw [List.map_map]
          exact List.mem_map.mpr ⟨p, hp, rfl⟩
        have hnone : parseSpecList
            ((d.specs.map (fun q => (q.1.data, safeVersionCs q.2.data))).map
              (fun q => q.1 ++ q.2)) = none :=
          parseSpecList_fail _ _ hmem hfail
        have hne2 : ((d.specs.map
            (fun q => (q.1.data, safeVersionCs q.2.data))).isEmpty) = false := by
          cases hs : d.specs with
          | nil => rw [hs] at hp; simp at hp
          | cons a l => rfl
        rw [parseSpecsFrom_canonJ _ hypS, hne2] at hJ
        simp only [Bool.false_eq_true, if_false] at hJ
        rw [hnone] at hJ
        exact absurd hJ (by simp)

/-! ## Re-parsing the rendered requirement -/

theorem exists_perm_map {α β : Type} (f : α → β) :
    ∀ (l2 : List β) (l : List α), l2.Perm (l.map f) →
      ∃ l1 : List α, l1.Perm l ∧ l2 = l1.map f := by
  intro l2
  induction l2 with
  | nil =>
    intro l h
    have h0 : l.map f = [] := h.symm.eq_nil
    rw [List.map_eq_nil_iff] at h0
    subst h0
    exact ⟨[], List.Perm.refl _, rfl⟩
  | cons b bs ih =>
    intro l h
    have hb : b ∈ l.map f := h.mem_iff.mp (List.mem_cons_self _ _)
    obtain ⟨a, ha, hfa⟩ := List.mem_map.mp hb
    obtain ⟨s, t, rfl⟩ := List.append_of_mem ha
    have hmap : ((s ++ a :: t).map f).Perm (f a :: (s ++ t).map f) := by
      rw [List.map_append, List.map_cons, List.map_append]
      exact List.perm_middle
    have h2 : (b :: bs).Perm (f a :: (s ++ t).map f) := h.trans hmap
    rw [← hfa] at h2
    have h3 : bs.Perm ((s ++ t).map f) := h2.cons_inv
    obtain ⟨l1, hl1, rfl⟩ := ih (s ++ t) h3
    refine ⟨a :: l1, ?_, ?_⟩
    · exact (hl1.cons a).trans List.perm_middle.symm
    · rw [List.map_cons, hfa]

theorem eqv_of_perm (r2 r : Req) (hn : r2.name = r.name) (he : r2.extras.Perm r.extras)
    (hs : r2.specs.Perm r.specs) (hm : r2.marker = r.marker) : Req.eqv r2 r = true := by
  have hkey : r2.key = r.key := by
    unfold Req.key Req.project_name
    rw [hn]
  unfold Req.eqv
  rw [hkey, hm]
  simp only [beq_self_eq_true, Bool.true_and, Bool.and_true]
  rw [Bool.and_eq_true, Bool.and_eq_true, Bool.and_eq_true]
  refine ⟨⟨⟨?_, ?_⟩, ?_⟩, ?_⟩ <;>
  · apply List.all_eq_true.mpr
    intro x hx
    apply List.elem_iff.mpr
    first
      | exact hs.mem_iff.mp hx
      | exact hs.mem_iff.mpr hx
      | exact he.mem_iff.mp hx
      | exact he.mem_iff.mpr hx

theorem reqStr_reparse (r : Req) (hc : CanonReq r) :
    ∃ r2, parse_requirement (reqStr r) = some r2 ∧ r2.name = r.name ∧
      r2.extras.Perm r.extras ∧ r2.specs.Perm r.specs ∧ r2.marker = none := by
  obtain ⟨⟨hn1, hn2, hn3⟩, hex, hsp, hm⟩ := hc
  obtain ⟨sp2, hsp2perm, hsorted⟩ :=
    exists_perm_map (fun p : String × String => p.1 ++ p.2)
      ((r.specs.map (fun p => p.1 ++ p.2)).mergeSort strLe) r.specs
      (List.mergeSort_perm _ strLe)
  have hEperm : (r.extras.mergeSort strLe).Perm r.extras := List.mergeSort_perm _ strLe
  have hbracket : (((r.extras.mergeSort strLe).map String.data).isEmpty) =
      r.extras.isEmpty := by
    cases hx : r.extras.mergeSort strLe with
    | nil =>
      have hxe : r.extras = [] := (hx ▸ hEperm).symm.eq_nil
      rw [hxe]
      rfl
    | cons e es =>
      have hxe : r.extras ≠ [] := by
        intro hcon
        rw [hcon] at hx
        simp at hx
      cases hy : r.extras with
      | nil => exact absurd hy hxe
      | cons a l => rfl
  have hjoin : ((sp2.map (fun p : String × String => p.1 ++ p.2)).map String.data) =
      (sp2.map (fun p => (p.1.data, p.2.data))).map (fun q => q.1 ++ q.2) := by
    rw [List.map_map, List.map_map]
    apply List.map_congr_left
    intro p _
    exact String.data_append p.1 p.2
  have hdata : (reqStr r).data = canonRender r.name.data
      ((r.extras.mergeSort strLe).map String.data)
      (sp2.map (fun p => (p.1.data, p.2.data))) := by
    simp only [reqStr, hm, hsorted, hjoin]
    unfold canonRender
    rw [← hbracket]
    simp [List.append_nil]
  have hypE2 : ∀ e ∈ (r.extras.mergeSort strLe).map String.data,
      e ≠ [] ∧ ∀ c ∈ e, nameChar c = true := by
    intro e he
    obtain ⟨e0, he0, rfl⟩ := List.mem_map.mp he
    have hmem := hEperm.mem_iff.mp he0
    exact ⟨(hex e0 hmem).1, (hex e0 hmem).2.1⟩
  have hypS2 : ∀ q ∈ sp2.map (fun p => (p.1.data, p.2.data)),
      q.1 ∈ validOps ∧ ∀ c ∈ q.2, canonVer c = true := by
    intro q hq
    obtain ⟨p0, hp0, rfl⟩ := List.mem_map.mp hq
    have hmem := hsp2perm.mem_iff.mp hp0
    exact ⟨(hsp p0 hmem).1, (hsp p0 hmem).2.2.1⟩
  have hJcanon : parseSpecsFrom (joinC ','
      ((sp2.map (fun p => (p.1.data, p.2.data))).map (fun p => p.1 ++ p.2))) =
      some (sp2.map (fun p => (p.1.data, p.2.data))) := by
    rw [parseSpecsFrom_canonJ _ hypS2]
    by_cases hse : ((sp2.map (fun p => (p.1.data, p.2.data))).isEmpty) = true
    · rw [if_pos hse, List.isEmpty_iff.mp hse]
    · rw [if_neg hse]
      apply parseSpecList_canon
      intro q hq
      obtain ⟨p0, hp0, rfl⟩ := List.mem_map.mp hq
      have hmem := hsp2perm.mem_iff.mp hp0
      exact ⟨(hsp p0 hmem).1, (hsp p0 hmem).2.1, (hsp p0 hmem).2.2.1⟩
  have hfix1 : (((r.extras.mergeSort strLe).map String.data).map
      (fun e => String.mk (safeExtraCs e))) = r.extras.mergeSort strLe := by
    rw [List.map_map]
    show ((r.extras.mergeSort strLe).map (fun e => String.mk (safeExtraCs e.data))) =
      r.extras.mergeSort strLe
    have h1 : ((r.extras.mergeSort strLe).map
        (fun e => String.mk (safeExtraCs e.data))) =
        (r.extras.mergeSort strLe).map id := by
      apply List.map_congr_left
      intro e he
      have hmem := hEperm.mem_iff.mp he
      show String.mk (safeExtraCs e.data) = e
      rw [(hex e hmem).2.2]
    rw [h1, List.map_id]
  have hfix2 : ((sp2.map (fun p => (p.1.data, p.2.data))).map
      (fun p => (String.mk p.1, String.mk p.2))) = sp2 := by
    rw [List.map_map]
    show (sp2.map (fun p => (String.mk p.1.data, String.mk p.2.data))) = sp2
    have h1 : (sp2.map (fun p => (String.mk p.1.data, String.mk p.2.data))) =
        sp2.map id := by
      apply List.map_congr_left
      intro p _
      rfl
    rw [h1, List.map_id]
  have hparse1 : reqParse (reqStr r) =
      some ⟨r.name, r.extras.mergeSort strLe, sp2, none⟩ := by
    show reqParseCs (reqStr r).data = _
    rw [hdata, reqParseCs_canon _ _ _ ⟨hn1, hn2⟩ hypE2 hypS2, hJcanon, hfix1]
    simp only [hfix2]
  have hspecfix : (sp2.map (fun p => (p.1.data, safeVersionCs p.2.data))) =
      sp2.map (fun p => (p.1.data, p.2.data)) := by
    apply List.map_congr_left
    intro p hp
    have hmem := hsp2perm.mem_iff.mp hp
    rw [(hsp p hmem).2.2.2]
  have hparse2 : reqParse (rebuild ⟨r.name, r.extras.mergeSort strLe, sp2, none⟩) =
      some ⟨r.name, r.extras.mergeSort strLe, sp2, none⟩ := by
    show reqParseCs (rebuild ⟨r.name, r.extras.mergeSort strLe, sp2, none⟩).data = _
    rw [rebuild_eq_canon]
    show reqParseCs (canonRender (safeNameCs r.name.data)
      ((r.extras.mergeSort strLe).map String.data)
      (sp2.map (fun p => (p.1.data, safeVersionCs p.2.data)))) = _
    rw [hn3, hspecfix, reqParseCs_canon _ _ _ ⟨hn1, hn2⟩ hypE2 hypS2, hJcanon, hfix1]
    simp only [hfix2]
  refine ⟨⟨r.name, r.extras.mergeSort strLe, sp2, none⟩, ?_, rfl, hEperm, hsp2perm, rfl⟩
  unfold parse_requirement
  rw [hparse1]
  exact hparse2

/-- C6: requirement normalisation is a round-trip fixpoint — for every string
accepted by the requirement grammar, re-parsing the rendered form of the
parsed requirement yields an equal requirement, under `pkg_resources`
requirement equality. -/
theorem parse_requirement_idempotent (s : String) (r : Req)
    (h : parse_requirement s = some r) :
    ∃ r2, parse_requirement (reqStr r) = some r2 ∧ Req.eqv r2 r = true := by
  have hc := parse_requirement_canon s r h
  obtain ⟨r2, hp, hname, hpe, hps, hm2⟩ := reqStr_reparse r hc
  exact ⟨r2, hp, eqv_of_perm r2 r hname hpe hps (by rw [hm2, hc.2.2.2])⟩

/-! ## Marker filtering in `get_raw_requirements` -/

theorem getRawLoop_drop (env : String → Bool) (filename line m : String) (raw : Req)
    (hp : reqParse line = some raw) (hm : raw.marker = some m) (hf : env m = false) :
    ∀ (pre post : List String),
      getRawLoop env filename (pre ++ line :: post) =
        getRawLoop env filename (pre ++ post) := by
  intro pre
  induction pre with
  | nil =>
    intro post
    simp only [List.nil_append]
    by_cases he : trimS line = "-e ."
    · simp only [getRawLoop]
      rw [if_pos he]
    · simp only [getRawLoop]
      rw [if_neg he, hp]
      simp [hm, hf]
  | cons p pre' ih =>
    intro post
    simp only [List.cons_append, getRawLoop, List.append_eq]
    rw [ih post]

theorem getRawLoop_keep (env : String → Bool) (filename line m : String)
    (post : List String) (raw r : Req)
    (hp : reqParse line = some raw) (hm : raw.marker = some m) (ht : env m = true)
    (hne : trimS line ≠ "-e .") (hr : parse_requirement line = some r) :
    getRawLoop env filename (line :: post) =
      (match getRawLoop env filename post with
        | .error e => .error e
        | .ok l => .ok ((r, filename) :: l)) := by
  simp only [getRawLoop]
  rw [if_neg hne, hp]
  simp [hm, ht, hr]

/-- C7: a manifest line whose environment marker evaluates false is dropped
entirely — `get_raw_requirements` returns exactly what it returns on the
stream without that line, so the line reaches no downstream result; a line
whose marker evaluates true is kept, prepended to the remaining results,
with the marker stripped from the parsed requirement. -/
theorem marker_filtering_drops_and_keeps (env : String → Bool)
    (filename line : String) (pre post : List String) (raw : Req) (m : String)
    (hp : reqParse line = some raw) (hm : raw.marker = some m) :
    (env m = false → ∀ lines, get_lines_from_file lines = pre ++ line :: post →
      get_raw_requirements env filename lines =
        getRawLoop env filename (pre ++ post)) ∧
    (env m = true → trimS line ≠ "-e ." → ∀ r, parse_requirement line = some r →
      r.marker = none ∧
      getRawLoop env filename (line :: post) =
        (match getRawLoop env filename post with
          | .error e => .error e
          | .ok l => .ok ((r, filename) :: l))) := by
  constructor
  · intro hf lines hl
    unfold get_raw_requirements
    rw [hl]
    exact getRawLoop_drop env filename line m raw hp hm hf pre post
  · intro ht hne r hr
    exact ⟨(parse_requirement_canon line r hr).2.2.2,
      getRawLoop_keep env filename line m post raw r hp hm ht hne hr⟩

/-- Witness for C7: concrete false-marker and true-marker lines, dropped and
kept respectively. -/
theorem marker_filtering_witness :
    (((fun s : String => s == "keep") "drop" = false →
      ∀ lines, get_lines_from_file lines = ["a==1"] ++ "foo==1.0; drop" :: ["b==2"] →
        get_raw_requirements (fun s : String => s == "keep") "requirements.txt" lines =
          getRawLoop (fun s : String => s == "keep") "requirements.txt"
            (["a==1"] ++ ["b==2"])) ∧
    ((fun s : String => s == "keep") "drop" = true →
      trimS "foo==1.0; drop" ≠ "-e ." →
      ∀ r, parse_requirement "foo==1.0; drop" = some r →
      r.marker = none ∧
      getRawLoop (fun s : String => s == "keep") "requirements.txt"
          ("foo==1.0; drop" :: ["b==2"]) =
        (match getRawLoop (fun s : String => s == "keep") "requirements.txt" ["b==2"] with
          | .error e => .error e
          | .ok l => .ok ((r, "requirements.txt") :: l)))) ∧
    (((fun s : String => s == "keep") "keep" = false →
      ∀ lines, get_lines_from_file lines = ["a==1"] ++ "bar==2.0; keep" :: ["b==2"] →
        get_raw_requirements (fun s : String => s == "keep") "requirements.txt" lines =
          getRawLoop (fun s : String => s == "keep") "requirements.txt"
            (["a==1"] ++ ["b==2"])) ∧
    ((fun s : String => s == "keep") "keep" = true →
      trimS "bar==2.0; keep" ≠ "-e ." →
      ∀ r, parse_requirement "bar==2.0; keep" = some r →
      r.marker = none ∧
      getRawLoop (fun s : String => s == "keep") "requirements.txt"
          ("bar==2.0; keep" :: ["b==2"]) =
        (match getRawLoop (fun s : String => s == "keep") "requirements.txt" ["b==2"] with
          | .error e => .error e
          | .ok l => .ok ((r, "requirements.txt") :: l)))) :=
  ⟨marker_filtering_drops_and_keeps (fun s : String => s == "keep") "requirements.txt"
      "foo==1.0; drop" ["a==1"] ["b==2"]
      ⟨"foo", [], [("==", "1.0")], some "drop"⟩ "drop" (by decide) (by decide),
    marker_filtering_drops_and_keeps (fun s : String => s == "keep") "requirements.txt"
      "bar==2.0; keep" ["a==1"] ["b==2"]
      ⟨"bar", [], [("==", "2.0")], some "keep"⟩ "keep" (by decide) (by decide)⟩

/-- Witness for C6: a concrete requirement string with extras and two
version constraints round-trips up to requirement equality. -/
theorem parse_requirement_idempotent_witness :
    ∃ r2, parse_requirement (reqStr
        ⟨"Foo-Bar", ["extra2", "extra1"], [(">=", "1.0"), ("==", "1.2.3")], none⟩) =
        some r2 ∧
      Req.eqv r2 ⟨"Foo-Bar", ["extra2", "extra1"], [(">=", "1.0"), ("==", "1.2.3")], none⟩ =
        true :=
  parse_requirement_idempotent "Foo_Bar[extra2,extra1]>=1.0,==1.2.3"
    ⟨"Foo-Bar", ["extra2", "extra1"], [(">=", "1.0"), ("==", "1.2.3")], none⟩
    (by decide)

end ReqTools





